import Mathlib

/-!
Shallow embedding of the iktomi/insanities form framework
(`src/iktomi/forms/fields.py`, `src/iktomi/forms/base.py`),
the WSGI adapter (`src/insanities/web/wsgi.py`) and the cookie
authentication layer (`src/insanities/auth.py`).

Conventions used throughout the embedding:
* Python strings are Lean `String`s; a raw form value that is not a string
  (e.g. a `cgi.FieldStorage` object) is `Raw.obj`.
* A `webob` MultiDict is a `List (String × Raw)` of key/value pairs in
  insertion order; `getall` returns values in insertion order and
  `md[k]`/`md.get(k)` returns the most recently inserted value, matching
  webob's semantics.
* Python dicts and OrderedDicts are association lists; assignment
  `d[k] = v` replaces the value in place when the key is present and
  appends otherwise (`odSet`), which models OrderedDict exactly and is a
  canonically-ordered model of the (unordered) Python dict.
* Converters (`iktomi.forms.convs` is not part of the source tree) are
  modelled from the spec as abstract bidirectional conversion functions,
  see `AtomSpec`.
-/

namespace Spec2Proof

/-! ### Ordered association lists (Python dict / OrderedDict) -/

/-- Lookup of the first binding of `k`, i.e. Python `d.get(k)` /
`k in d` on a duplicate-free association list. -/
def odGet {α : Type} : List (String × α) → String → Option α
  | [], _ => none
  | (k', v') :: rest, k => if k' = k then some v' else odGet rest k

/-- Assignment `d[k] = v` on a dict/OrderedDict: replace the first binding
in place when present, append otherwise. -/
def odSet {α : Type} : List (String × α) → String → α → List (String × α)
  | [], k, v => [(k, v)]
  | (k', v') :: rest, k, v =>
    if k' = k then (k, v) :: rest else (k', v') :: odSet rest k v

/-- Keys of an association list, in order. -/
def odKeys {α : Type} (d : List (String × α)) : List String := d.map (·.1)

/-- Values of an association list, in order (`OrderedDict.values()`). -/
def odValues {α : Type} (d : List (String × α)) : List α := d.map (·.2)

theorem odGet_odSet_self {α : Type} (d : List (String × α)) (k : String) (v : α) :
    odGet (odSet d k v) k = some v := by
  induction d with
  | nil => simp [odGet, odSet]
  | cons p rest ih =>
    by_cases h : p.1 = k
    · simp [odSet, odGet, h]
    · simpa [odSet, odGet, h] using ih

theorem odGet_odSet_other {α : Type} (d : List (String × α)) (k k' : String) (v : α)
    (h : k' ≠ k) : odGet (odSet d k v) k' = odGet d k' := by
  induction d with
  | nil => simp [odGet, odSet, Ne.symm h]
  | cons p rest ih =>
    by_cases hp : p.1 = k
    · subst hp
      simp [odSet, odGet, Ne.symm h]
    · simp only [odSet, if_neg hp]
      by_cases hp' : p.1 = k'
      · simp [odGet, hp']
      · simpa [odGet, hp'] using ih

/-! ### Raw form values and multidicts -/

/-- Raw value stored in the form's raw-data multidict.  HTTP form decoding
produces strings; `obj` stands for any non-string value (such as a
`cgi.FieldStorage`) that an API caller may have placed there. -/
inductive Raw where
  | str (s : String)
  | obj (n : Nat)
deriving DecidableEq, Repr

/-- Python `isinstance(value, basestring)`. -/
def Raw.isStr : Raw → Bool
  | .str _ => true
  | .obj _ => false

/-- Extracts the string payload of a raw value, if any. -/
def Raw.asStr : Raw → Option String
  | .str s => some s
  | .obj _ => none

/-- The raw-data multidict (`webob.MultiDict`): key/value pairs kept in
insertion order. -/
abbrev MD := List (String × Raw)

namespace MD

/-- Model of `MultiDict.getall(k)`: all values bound to `k`, in insertion
order. -/
def getall (md : MD) (k : String) : List Raw :=
  (md.filter (fun p => p.1 = k)).map (·.2)

/-- Model of `MultiDict.get(k, default)`: the most recently inserted value
bound to `k`, or the default. -/
def get (md : MD) (k : String) (dflt : Raw) : Raw :=
  ((getall md k).getLast?).getD dflt

/-- Model of `del md[k]` (with the `KeyError` on an absent key caught by
the caller): drop every binding of `k`. -/
def delall (md : MD) (k : String) : MD :=
  md.filter (fun p => ¬ p.1 = k)

/-- Model of `md.add(k, v)`: append one more binding of `k`. -/
def add (md : MD) (k : String) (v : Raw) : MD := md ++ [(k, v)]

/-- Model of `md[k] = v`: webob removes every binding of `k` and appends a
single fresh one. -/
def set (md : MD) (k : String) (v : Raw) : MD := delall md k ++ [(k, v)]

/-- Model of `k in md`. -/
def hasKey (md : MD) (k : String) : Bool := md.any (fun p => p.1 = k)

theorem getall_append (md₁ md₂ : MD) (k : String) :
    getall (md₁ ++ md₂) k = getall md₁ k ++ getall md₂ k := by
  simp [getall, List.filter_append]

theorem getall_delall_self (md : MD) (k : String) : getall (delall md k) k = [] := by
  simp only [getall, delall, List.filter_filter]
  induction md with
  | nil => rfl
  | cons p rest ih =>
    by_cases h : p.1 = k <;> simp_all [List.filter]

theorem getall_delall_other (md : MD) (k k' : String) (h : k' ≠ k) :
    getall (delall md k) k' = getall md k' := by
  simp only [getall, delall, List.filter_filter]
  induction md with
  | nil => rfl
  | cons p rest ih =>
    by_cases hp : p.1 = k' <;> by_cases hq : p.1 = k <;> simp_all [List.filter]

theorem getall_set_self (md : MD) (k : String) (v : Raw) :
    getall (set md k v) k = [v] := by
  rw [set, getall_append, getall_delall_self]
  simp [getall]

theorem getall_set_other (md : MD) (k k' : String) (v : Raw) (h : k' ≠ k) :
    getall (set md k v) k' = getall md k' := by
  rw [set, getall_append, getall_delall_other md k k' h]
  simp [getall, Ne.symm h]

theorem getall_add_self (md : MD) (k : String) (v : Raw) :
    getall (add md k v) k = getall md k ++ [v] := by
  simp [add, getall_append, getall]

theorem getall_add_other (md : MD) (k k' : String) (v : Raw) (h : k' ≠ k) :
    getall (add md k v) k' = getall md k' := by
  simp [add, getall_append, getall, Ne.symm h]

end MD

/-! ### Decimal rendering of naturals (Python `str(index)`)

`FieldList.set_raw_value` writes `str(index)` for `index in
range(1, len(value)+1)`; in the embedding this is Lean's `Nat.repr`.
The lemmas below establish the facts needed about it: its characters are
decimal digits and it is injective. -/

/-- Decimal digits. -/
def decDigits : List Char := ['0', '1', '2', '3', '4', '5', '6', '7', '8', '9']

theorem digitChar_mem_decDigits {m : Nat} (h : m < 10) : Nat.digitChar m ∈ decDigits := by
  interval_cases m <;> decide

theorem digitChar_toNat {m : Nat} (h : m < 10) : (Nat.digitChar m).toNat = 48 + m := by
  interval_cases m <;> decide

/-- Numeric value of a decimal digit string (most significant first). -/
def digitsVal (cs : List Char) : Nat :=
  cs.foldl (fun a c => 10 * a + (c.toNat - 48)) 0

theorem digitsVal_append_singleton (cs : List Char) (c : Char) :
    digitsVal (cs ++ [c]) = 10 * digitsVal cs + (c.toNat - 48) := by
  simp [digitsVal, List.foldl_append]

theorem toDigitsCore_append (fuel n : Nat) (ds : List Char) :
    Nat.toDigitsCore 10 fuel n ds = Nat.toDigitsCore 10 fuel n [] ++ ds := by
  induction fuel generalizing n ds with
  | zero => simp [Nat.toDigitsCore]
  | succ fuel ih =>
    simp only [Nat.toDigitsCore]
    by_cases h : n / 10 = 0
    · simp [h]
    · rw [if_neg h, if_neg h, ih (n / 10) (Nat.digitChar (n % 10) :: ds),
        ih (n / 10) [Nat.digitChar (n % 10)]]
      simp

theorem toDigitsCore_spec (fuel n : Nat) (h : n < fuel) :
    digitsVal (Nat.toDigitsCore 10 fuel n []) = n ∧
    (∀ c ∈ Nat.toDigitsCore 10 fuel n [], c ∈ decDigits) ∧
    Nat.toDigitsCore 10 fuel n [] ≠ [] := by
  induction fuel generalizing n with
  | zero => omega
  | succ fuel ih =>
    simp only [Nat.toDigitsCore]
    by_cases hz : n / 10 = 0
    · have hn : n < 10 := by omega
      have hmod : n % 10 = n := Nat.mod_eq_of_lt hn
      rw [if_pos hz, hmod]
      refine ⟨?_, ?_, by simp⟩
      · simp [digitsVal, digitChar_toNat hn]
      · intro c hc
        simp only [List.mem_singleton] at hc
        subst hc
        exact digitChar_mem_decDigits hn
    · rw [if_neg hz, toDigitsCore_append fuel (n / 10) [Nat.digitChar (n % 10)]]
      have hdiv : n / 10 < fuel := by
        have h1 : n / 10 < n := Nat.div_lt_self (by omega) (by omega)
        omega
      obtain ⟨hval, hmem, _⟩ := ih (n / 10) hdiv
      refine ⟨?_, ?_, by simp⟩
      · rw [digitsVal_append_singleton, hval,
          digitChar_toNat (Nat.mod_lt n (by omega))]
        omega
      · intro c hc
        rcases List.mem_append.mp hc with h1 | h1
        · exact hmem c h1
        · simp only [List.mem_singleton] at h1
          subst h1
          exact digitChar_mem_decDigits (Nat.mod_lt n (by omega))

theorem repr_data_eq (n : Nat) : (Nat.repr n).data = Nat.toDigits 10 n := by
  simp [Nat.repr, List.asString]

theorem digitsVal_repr (n : Nat) : digitsVal (Nat.repr n).data = n := by
  rw [repr_data_eq]
  exact (toDigitsCore_spec (n + 1) n (by omega)).1

theorem repr_mem_decDigits (n : Nat) : ∀ c ∈ (Nat.repr n).data, c ∈ decDigits := by
  rw [repr_data_eq]
  exact (toDigitsCore_spec (n + 1) n (by omega)).2.1

theorem repr_data_ne_nil (n : Nat) : (Nat.repr n).data ≠ [] := by
  rw [repr_data_eq]
  exact (toDigitsCore_spec (n + 1) n (by omega)).2.2

theorem repr_injective : Function.Injective Nat.repr := by
  intro m n h
  have : digitsVal (Nat.repr m).data = digitsVal (Nat.repr n).data := by rw [h]
  rwa [digitsVal_repr, digitsVal_repr] at this

/-! ### Python `int(s)` -/

/-- Model of a successful Python 2 `int(s)` conversion on a `str`: optional
surrounding whitespace, an optional sign, then one or more decimal digits.
(Unicode digit strings, which CPython also accepts, do not arise from the
ASCII index strings this model is used with.) -/
def pyIntParses (s : String) : Bool :=
  let cs := (s.data.dropWhile Char.isWhitespace).reverse.dropWhile Char.isWhitespace
  let cs := cs.reverse
  let cs := if cs.head? = some '+' ∨ cs.head? = some '-' then cs.tail else cs
  !cs.isEmpty && cs.all Char.isDigit

theorem decDigit_facts {c : Char} (h : c ∈ decDigits) :
    c.isWhitespace = false ∧ c.isDigit = true ∧ c ≠ '+' ∧ c ≠ '-' := by
  fin_cases h <;> exact ⟨rfl, rfl, by decide, by decide⟩

theorem dropWhile_eq_self_of_all {α : Type} {p : α → Bool} {l : List α}
    (h : ∀ x ∈ l, p x = false) : l.dropWhile p = l := by
  cases l with
  | nil => rfl
  | cons y ys =>
    rw [List.dropWhile_cons, h y (by simp)]
    simp

/-- A rendered positive index always passes the `int(index)` check. -/
theorem pyIntParses_repr (n : Nat) : pyIntParses (Nat.repr n) = true := by
  have hmem := repr_mem_decDigits n
  have hne := repr_data_ne_nil n
  obtain ⟨c, cs, heq⟩ : ∃ c cs, (Nat.repr n).data = c :: cs := by
    cases h : (Nat.repr n).data with
    | nil => exact absurd h hne
    | cons c cs => exact ⟨c, cs, rfl⟩
  rw [pyIntParses, heq]
  have hall : ∀ x ∈ c :: cs, x ∈ decDigits := by rw [← heq]; exact hmem
  have hnows : ∀ x ∈ c :: cs, x.isWhitespace = false := fun x hx =>
    (decDigit_facts (hall x hx)).1
  have hdrop1 : (c :: cs).dropWhile Char.isWhitespace = c :: cs :=
    dropWhile_eq_self_of_all hnows
  rw [hdrop1]
  have hdrop2 : (c :: cs).reverse.dropWhile Char.isWhitespace = (c :: cs).reverse :=
    dropWhile_eq_self_of_all (fun x hx => hnows x (by
      simp only [List.mem_reverse] at hx
      exact hx))
  rw [hdrop2, List.reverse_reverse]
  obtain ⟨-, -, hplus, hminus⟩ := decDigit_facts (hall c (by simp))
  rw [if_neg (by simp [hplus, hminus])]
  simp only [List.isEmpty_cons, Bool.not_false, Bool.true_and, List.all_eq_true]
  intro x hx
  exact (decDigit_facts (hall x hx)).2.1

/-! ### Typed Python values and converters -/

/-- Typed Python values flowing through the form tree: `None`, strings,
opaque non-string atoms (ints, dates, …), lists and dicts. -/
inductive PyValue where
  | none
  | pstr (s : String)
  | pobj (n : Nat)
  | vlist (l : List PyValue)
  | vdict (d : List (String × PyValue))

/-- Contents of a dict value (Python raises on non-dicts; such calls are
outside the modelled domain). -/
def PyValue.asDict : PyValue → List (String × PyValue)
  | .vdict d => d
  | _ => []

/-- Form error dictionary (`form.errors`). -/
abbrev Errors := List (String × String)

/-- Modelled from the spec: the converter of an atomic field
(`iktomi.forms.convs` is not part of the source tree; the spec only says
converters perform "bidirectional conversion between raw HTTP form data
and typed Python values").  `accS`/`fpS` are `conv.accept`/
`conv.from_python` for a non-multiple field (raw value is one string),
`accM`/`fpM` the same for a multiple field (raw value is a list of
strings).  `initial` is the field's `initial` attribute when set. -/
structure AtomSpec where
  multiple : Bool
  accS : Raw → PyValue
  fpS : PyValue → Raw
  accM : List Raw → PyValue
  fpM : PyValue → List Raw
  initial : Option PyValue

/-! ### The field tree

`Field` (atomic), `FieldSet` and `FieldList` from
`src/iktomi/forms/fields.py`.  A node's `name` and its permission bit
(`'w' in field.permissions`, i.e. `BaseField.writable`) are carried by the
parent (`FChildren.cons` for `FieldSet` children; a `FieldList` carries
the writability of its element template, whose name is replaced by the
submitted index).  Input names follow the source: the child prefix of a
container named `n` under prefix `p` is `p ++ n ++ "."`, and a
`FieldList`'s index list lives under `p ++ n ++ "-indeces"`. -/

mutual
inductive FBody where
  | atom (spec : AtomSpec)
  | fieldset (fields : FChildren)
  | fieldlist (elemWritable : Bool) (elem : FBody)
inductive FChildren where
  | nil
  | cons (name : String) (writable : Bool) (body : FBody) (rest : FChildren)
end

/-- Child names of a `FieldSet`, in order. -/
def FChildren.names : FChildren → List String
  | .nil => []
  | .cons n _ _ rest => n :: names rest

/-- Elements of a list paired with their decimal indices counting from
`i`. -/
def indexDictFrom (i : Nat) : List PyValue → List (String × PyValue)
  | [] => []
  | x :: rest => (Nat.repr i, x) :: indexDictFrom (i + 1) rest

/-- Modelled from the spec: `convs.List.from_python` of the missing convs
module pairs the elements of a list with the 1-based decimal indices that
`FieldList.set_raw_value` iterates over (`value[str(index)]` for
`index in range(1, len(value)+1)`). -/
def indexDict (l : List PyValue) : List (String × PyValue) :=
  indexDictFrom 1 l

/-- Tree-level `field.from_python`.  For an atomic field the raw-level
conversion (`spec.fpS`/`spec.fpM`) is applied by `set_raw_value` itself,
so nothing happens at this level; the `FieldSet` converter is the base
`convs.Converter`, modelled from the spec as the identity; the
`FieldList` converter (`convs.List`) indexes the list. -/
def fromPythonB : FBody → PyValue → PyValue
  | .atom _, v => v
  | .fieldset _, v => v
  | .fieldlist _ _, .vlist l => .vdict (indexDict l)
  | .fieldlist _ _, v => v

mutual
/-- Model of `get_initial`: an atomic field returns its `initial`
attribute if set, else `[]` when multiple and `None` otherwise;
`FieldSet.get_initial` builds the dict of child initials;
`FieldList.get_initial` returns `[]`. -/
def getInitialB : FBody → PyValue
  | .atom spec => spec.initial.getD (if spec.multiple then .vlist [] else .none)
  | .fieldset cs => .vdict (initialChildren cs)
  | .fieldlist _ _ => .vlist []
def initialChildren : FChildren → List (String × PyValue)
  | .nil => []
  | .cons n _ b rest => (n, getInitialB b) :: initialChildren rest
end

/-- Model of `AggregateField.python_data` for a child: `from_python` of
its `clean_value` when the parent's data has its key, falling back to
`get_initial()` on `LookupError`. -/
def childPyData (b : FBody) (clean : Option PyValue) : PyValue :=
  fromPythonB b (clean.getD (getInitialB b))

/-- Repeated `raw_data.add(k, v)` over a list of values. -/
def MD.addAll (md : MD) (k : String) (vs : List Raw) : MD :=
  md ++ vs.map (fun v => (k, v))

/-! ### `set_raw_value`

`setRawBody pfx name b md v` models
`field.set_raw_value(raw_data, field.from_python(v))` for the field named
`name` under prefix `pfx` — the composition in which every call site in
the source applies `set_raw_value` (`FieldSet.set_raw_value`,
`FieldSet.accept`, the claim round trip). -/

mutual
def setRawBody (pfx name : String) (b : FBody) (md : MD) (v : PyValue) : MD :=
  match b with
  | .atom spec =>
    if spec.multiple then
      MD.addAll (MD.delall md (pfx ++ name)) (pfx ++ name) (spec.fpM v)
    else
      MD.set md (pfx ++ name) (spec.fpS v)
  | .fieldset cs =>
    setRawChildren (pfx ++ name ++ ".") cs md v.asDict
  | .fieldlist w elem =>
    let d := (fromPythonB (.fieldlist w elem) v).asDict
    let idxs := (List.range d.length).map (· + 1)
    let md1 := setRawIdxs (pfx ++ name ++ ".") elem d md idxs
    MD.addAll (MD.delall md1 (pfx ++ name ++ "-indeces")) (pfx ++ name ++ "-indeces")
      (idxs.map (fun i => Raw.str (Nat.repr i)))
termination_by (sizeOf b, 0)
def setRawChildren (pfx : String) (cs : FChildren) (md : MD)
    (d : List (String × PyValue)) : MD :=
  match cs with
  | .nil => md
  | .cons n _ b rest =>
    setRawChildren pfx rest (setRawBody pfx n b md ((odGet d n).getD .none)) d
termination_by (sizeOf cs, 0)
def setRawIdxs (pfx : String) (elem : FBody) (d : List (String × PyValue))
    (md : MD) (idxs : List Nat) : MD :=
  match idxs with
  | [] => md
  | i :: rest =>
    setRawIdxs pfx elem d
      (setRawBody pfx (Nat.repr i) elem md ((odGet d (Nat.repr i)).getD .none)) rest
termination_by (sizeOf elem, idxs.length + 1)
end

/-! ### `accept` -/

/-- Model of `Field._check_value_type`: every raw value must be a string;
on failure the message is stored under the field's input name in
`form.errors`. -/
def Field.check_value_type (input_name : String) (values : List Raw)
    (errors : Errors) : Bool × Errors :=
  if values.all Raw.isStr then (true, errors)
  else (false, odSet errors input_name "Given value has incompatible type")

/-- Model of `Field.accept` for an atomic field: take the raw value
(`getall` for a multiple field, `get(input_name, '')` otherwise), fall
back to the null value (`[]` if multiple else `''`) when the type check
fails, and convert. -/
def Field.accept (spec : AtomSpec) (input_name : String) (md : MD)
    (errors : Errors) : PyValue × Errors :=
  if spec.multiple then
    let value := MD.getall md input_name
    let c := Field.check_value_type input_name value errors
    if c.1 then (spec.accM value, c.2) else (spec.accM [], c.2)
  else
    let value := MD.get md input_name (Raw.str "")
    let c := Field.check_value_type input_name [value] errors
    if c.1 then (spec.accS value, c.2) else (spec.accS (Raw.str ""), c.2)

mutual
/-- Model of `accept` for a field named `name` under prefix `pfx`.
`stored` is the field's current `python_data`; the result is the accepted
value together with the raw-data multidict (which `FieldSet.accept`
mutates for read-only children) and the error dict. -/
def acceptBody (pfx name : String) (b : FBody) (stored : PyValue) (md : MD)
    (errs : Errors) : PyValue × MD × Errors :=
  match b with
  | .atom spec =>
    let r := Field.accept spec (pfx ++ name) md errs
    (r.1, md, r.2)
  | .fieldset cs =>
    let d := stored.asDict
    let r := acceptChildren (pfx ++ name ++ ".") cs d d md errs
    (.vdict r.1, r.2.1, r.2.2)
  | .fieldlist w elem =>
    let old := stored.asDict
    let idxs := (MD.getall md (pfx ++ name ++ "-indeces")).filterMap Raw.asStr
    let r := acceptIndeces (pfx ++ name ++ ".") w elem old idxs [] md errs
    (.vlist (odValues r.1), r.2.1, r.2.2)
termination_by (sizeOf b, 0)
/-- The `for field in self.fields` loop of `FieldSet.accept`: `d` is the
copy of `python_data` the loop starts from, `result` the dict being
filled.  A writable child contributes `field.accept()`; for a read-only
child the current value is written back into the raw data. -/
def acceptChildren (pfx : String) (cs : FChildren) (d : List (String × PyValue))
    (result : List (String × PyValue)) (md : MD) (errs : Errors) :
    (List (String × PyValue)) × MD × Errors :=
  match cs with
  | .nil => (result, md, errs)
  | .cons n w b rest =>
    if w then
      let cstored := childPyData b (odGet d n)
      let r := acceptBody pfx n b cstored md errs
      acceptChildren pfx rest d (odSet result n r.1) r.2.1 r.2.2
    else
      let md1 := setRawBody pfx n b md ((odGet result n).getD .none)
      acceptChildren pfx rest d result md1 errs
termination_by (sizeOf cs, 0)
/-- The index loop of `FieldList.accept`: each string under the
`-indeces` key that passes the `int(index)` check instantiates the element
template under that name; a read-only element copies the old value when
the index is present in `python_data`, a writable one accepts the raw
data. -/
def acceptIndeces (pfx : String) (w : Bool) (elem : FBody)
    (old : List (String × PyValue)) (idxs : List String)
    (result : List (String × PyValue)) (md : MD) (errs : Errors) :
    (List (String × PyValue)) × MD × Errors :=
  match idxs with
  | [] => (result, md, errs)
  | idx :: rest =>
    if pyIntParses idx then
      if w then
        let cstored := childPyData elem (odGet old idx)
        let r := acceptBody pfx idx elem cstored md errs
        acceptIndeces pfx w elem old rest (odSet result idx r.1) r.2.1 r.2.2
      else
        match odGet old idx with
        | some ov => acceptIndeces pfx w elem old rest (odSet result idx ov) md errs
        | Option.none => acceptIndeces pfx w elem old rest result md errs
    else acceptIndeces pfx w elem old rest result md errs
termination_by (sizeOf elem, idxs.length + 1)
end

/-! ### `get_field` -/

/-- Python `name.split(sep, 1)` on the character level: the part before
the first separator and, when a separator occurs, the remainder. -/
def splitFirst (sep : Char) : List Char → List Char × Option (List Char)
  | [] => ([], Option.none)
  | c :: rest =>
    if c = sep then ([], some rest)
    else
      let r := splitFirst sep rest
      (c :: r.1, r.2)

/-- Model of `FieldList._digit_re.match(s)` for `re.compile('\d+$')`:
one or more ASCII digits spanning the string (re's `$` also matches just
before one final newline). -/
def digitReMatch (s : String) : Bool :=
  let cs := s.data
  let core := if cs.getLast? = some '\n' then cs.dropLast else cs
  !core.isEmpty && core.all Char.isDigit

mutual
/-- Dispatch of `get_field` on the field's class.  An atomic `Field` has
no `get_field` method (Python would raise `AttributeError`), modelled as
no result.  `FieldList.get_field` admits only names matching
`_digit_re` and instantiates its element template under that name. -/
def getFieldB (b : FBody) (name : String) : Option (String × Bool × FBody) :=
  match b with
  | .atom _ => Option.none
  | .fieldset cs => FieldSet.get_field cs name
  | .fieldlist w elem =>
    let p := splitFirst '.' name.data
    if digitReMatch (String.mk p.1) then
      match p.2 with
      | some rest => getFieldB elem (String.mk rest)
      | Option.none => some (String.mk p.1, w, elem)
    else Option.none
/-- Model of `FieldSet.get_field`: split the name on the first dot, scan
the children for the first one bearing the head, and recurse into it when
a rest remains.  The result is the found child as (name, writable, body). -/
def FieldSet.get_field (cs : FChildren) (name : String) :
    Option (String × Bool × FBody) :=
  match cs with
  | .nil => Option.none
  | .cons n w b rest =>
    let p := splitFirst '.' name.data
    if n = String.mk p.1 then
      match p.2 with
      | some r => getFieldB b (String.mk r)
      | Option.none => some (n, w, b)
    else FieldSet.get_field rest name
end

/-! ### `get_fields` / `get_widgets`
(`src/iktomi/forms/base.py` and the module-level duplicates at the bottom
of `src/iktomi/forms/fields.py`) -/

/-- Elements of the heterogeneous `fields` argument: `BaseField`
instances (carrying their name and possibly-falsy `widget` attribute),
`FieldBlock`s (which are `NoFieldWidget` subclasses and carry a `fields`
list), plain `NoFieldWidget`s, and any other object. -/
inductive FormItem where
  | basefield (name : String) (widget : Option Nat)
  | fieldblock (fields : List FormItem)
  | nofieldwidget (id : Nat)
  | other (id : Nat)

/-- An entry of the computed `widgets` list: either a field's `widget`
attribute or the `NoFieldWidget`/`FieldBlock` item itself. -/
inductive WidgetItem where
  | fieldWidget (w : Nat)
  | item (it : FormItem)

/-- Python `isinstance` test for the three classes the helpers know. -/
def FormItem.isKnown : FormItem → Bool
  | .other _ => false
  | _ => true

/-- Name of a `BaseField` item, if it is one. -/
def FormItem.nameOf : FormItem → Option String
  | .basefield n _ => some n
  | _ => Option.none

namespace HasFields

/-- Model of `HasFields.get_fields` (base.py): keep `BaseField`s, splice
in a `FieldBlock`'s `fields`, skip `NoFieldWidget`s, and raise
`RuntimeError` on anything else. -/
def get_fields : List FormItem → Except String (List FormItem)
  | [] => .ok []
  | .basefield n w :: rest => (get_fields rest).map (fun fs => .basefield n w :: fs)
  | .fieldblock fs :: rest => (get_fields rest).map (fun r => fs ++ r)
  | .nofieldwidget _ :: rest => get_fields rest
  | .other _ :: _ =>
    .error "fields argument should be either BaseField or NoFieldWidget instance"

/-- Model of `HasFields.get_widgets` (base.py): a `BaseField` with a
truthy `widget` contributes that widget; a `NoFieldWidget` instance
(including every `FieldBlock`) contributes itself. -/
def get_widgets : List FormItem → List WidgetItem
  | [] => []
  | .basefield _ (some w) :: rest => .fieldWidget w :: get_widgets rest
  | .basefield _ Option.none :: rest => get_widgets rest
  | .fieldblock fs :: rest => .item (.fieldblock fs) :: get_widgets rest
  | .nofieldwidget i :: rest => .item (.nofieldwidget i) :: get_widgets rest
  | .other _ :: rest => get_widgets rest

end HasFields

/-- Model of the module-level `_get_fields` (fields.py): same partition as
`HasFields.get_fields` but silently skipping unknown elements. -/
def _get_fields : List FormItem → List FormItem
  | [] => []
  | .basefield n w :: rest => .basefield n w :: _get_fields rest
  | .fieldblock fs :: rest => fs ++ _get_fields rest
  | _ :: rest => _get_fields rest

/-- Model of the module-level `_get_widgets` (fields.py). -/
def _get_widgets : List FormItem → List WidgetItem
  | [] => []
  | .basefield _ (some w) :: rest => .fieldWidget w :: _get_widgets rest
  | .basefield _ Option.none :: rest => _get_widgets rest
  | .fieldblock fs :: rest => .item (.fieldblock fs) :: _get_widgets rest
  | .nofieldwidget i :: rest => .item (.nofieldwidget i) :: _get_widgets rest
  | .other _ :: rest => _get_widgets rest

/-- Names of the `BaseField` entries of a computed fields list. -/
def fieldNames (l : List FormItem) : List String := l.filterMap FormItem.nameOf

/-! ### WSGI handler (`src/insanities/web/wsgi.py`)

`RequestContext`, `STOP` and `HttpException` live in the missing
`insanities.web.core`/`http` modules; here an application run is reduced
to its observable outcome on the request's response object. -/

/-- Constant from `httplib`. -/
def MOVED_PERMANENTLY : Nat := 301

/-- Constant from `httplib`. -/
def SEE_OTHER : Nat := 303

/-- Constant from `httplib`. -/
def NOT_FOUND : Nat := 404

/-- An `HttpException`'s `url` attribute: a `unicode` string (encoded to
utf-8 bytes by the handler) or an already-encoded `str` (passed through
`str(...)`); both denote the same byte string in this embedding. -/
inductive PyStr where
  | uni (s : String)
  | bytes (s : String)

/-- The bytes placed in the `Location` header: `e.url.encode('utf-8')`
for unicode, `str(e.url)` otherwise. -/
def PyStr.toBytes : PyStr → String
  | .uni s => s
  | .bytes s => s

/-- The mutable response object of the request context. -/
structure Response where
  status : Nat
  headers : List (String × String)
  body : String

/-- Model of `process_http_exception`: set the exception's status on the
response and, for 301/303, add a `Location` header with the URL. -/
def process_http_exception (response : Response) (status : Nat) (url : PyStr) :
    Response :=
  let response := { response with status := status }
  if status = MOVED_PERMANENTLY ∨ status = SEE_OTHER then
    { response with headers := response.headers ++ [("Location", url.toBytes)] }
  else response

/-- Observable outcome of `self.app(rctx)`: a normal return, the `STOP`
sentinel, a raised `HttpException status url`, or any other exception. -/
inductive AppOutcome where
  | ok
  | stop
  | httpExc (status : Nat) (url : PyStr)
  | failure

/-- Model of `WSGIHandler.__call__` after the application ran, acting on
the response object's state at that point: `STOP` yields 404, an
`HttpException` is processed, any other exception is logged and
re-raised (no response). -/
def WSGIHandler.call (response : Response) : AppOutcome → Option Response
  | .ok => some response
  | .stop => some { response with status := NOT_FOUND }
  | .httpExc st url => some (process_http_exception response st url)
  | .failure => Option.none

/-! ### Cookie authentication (`src/insanities/auth.py`) -/

/-- The per-request environment as far as `CookieAuth.handle` touches it:
the request's cookies and the `user` attribute (`Option.none` when the
attribute is absent, `some u` when `env.user = u`). -/
structure AuthEnv (α : Type) where
  cookies : List (String × String)
  user : Option (Option α) := Option.none

/-- Modelled from the spec: `LocalMemStorage.get` of the missing
`insanities.storage` module — the "pluggable key-value store" backed by an
in-process dict. -/
def localMemGet (storage : List (String × String)) (k : String) : Option String :=
  odGet storage k

/-- Modelled from the spec: `LocalMemStorage.set` — store the value under
the key (always succeeds for the in-memory dict). -/
def localMemSet (storage : List (String × String)) (k v : String) :
    List (String × String) :=
  odSet storage k v

namespace CookieAuth

/-- Model of `CookieAuth.handle`: compute the user (the identified user
exactly when the auth cookie is present and the storage holds an identity
under `cookie_name + ':' + key`, `None` otherwise), set `env.user`, run
the next handler, and finally delete `env.user`.  Returns the handler's
result and the environment after the `finally`. -/
def handle {α β : Type} (cookie_name : String)
    (storageGet : String → Option String)
    (identify_user : AuthEnv α → String → α) (env : AuthEnv α)
    (next_handler : AuthEnv α → β) : β × AuthEnv α :=
  let user : Option α :=
    match odGet env.cookies cookie_name with
    | some key =>
      match storageGet (cookie_name ++ ":" ++ key) with
      | some user_identity => some (identify_user env user_identity)
      | Option.none => Option.none
    | Option.none => Option.none
  let env1 : AuthEnv α := { env with user := some user }
  let result := next_handler env1
  (result, { env1 with user := Option.none })

/-- Model of the storage effect of `CookieAuth.login_identity`: store the
identity under `cookie_name + ':' + key` (the key, drawn from
`os.urandom` in the source, is a parameter; the `Set-Cookie` on the
response is not modelled). -/
def login_identity (cookie_name key user_identity : String)
    (storage : List (String × String)) : List (String × String) :=
  localMemSet storage (cookie_name ++ ":" ++ key) user_identity

end CookieAuth

/-! ### Passwords (`encrypt_password` / `check_password`) -/

/-- Python `s.split(sep)` (no maxsplit) on the character level. -/
def pySplitCh (sep : Char) : List Char → List (List Char)
  | [] => [[]]
  | c :: rest =>
    match pySplitCh sep rest with
    | h :: t => if c = sep then [] :: h :: t else (c :: h) :: t
    | [] => [[]]

/-- Python `s.split(sep)` for a one-character separator. -/
def pySplit (s : String) (sep : Char) : List String :=
  (pySplitCh sep s.data).map String.mk

/-- Model of `encrypt_password(raw_password, algorithm, salt)` for an
explicitly given salt: `'%s$%s$%s' % (algorithm, salt, hash)` where the
hash is `hashlib.new(algorithm, salt + raw_password).hexdigest()`,
abstracted as the function `hexdigest` (the utf-8 encodes are identities
on this model's strings; the `salt=None` default draws from `os.urandom`
and is outside the claims). -/
def encrypt_password (hexdigest : String → String → String)
    (raw_password algorithm salt : String) : String :=
  algorithm ++ "$" ++ salt ++ "$" ++ hexdigest algorithm (salt ++ raw_password)

/-- Model of `check_password`: unpack `enc_password.split('$')` into
algorithm, salt and hash — a `ValueError` (modelled as no result) unless
there are exactly three parts — and compare against re-encryption. -/
def check_password (hexdigest : String → String → String)
    (raw_password enc_password : String) : Option Bool :=
  match pySplit enc_password '$' with
  | [algo, salt, _hsh] =>
    some (decide (enc_password = encrypt_password hexdigest raw_password algo salt))
  | _ => Option.none

/-! ### Helper lemmas for the claims -/

theorem pySplitCh_no_sep {sep : Char} : ∀ {a : List Char}, sep ∉ a →
    pySplitCh sep a = [a]
  | [], _ => rfl
  | c :: rest, h => by
    have hc : ¬ c = sep := fun hcs => h (hcs ▸ List.mem_cons_self c rest)
    have hr : sep ∉ rest := fun hm => h (List.mem_cons_of_mem c hm)
    rw [pySplitCh, pySplitCh_no_sep hr]
    simp [hc]

theorem pySplitCh_append {sep : Char} {a rest : List Char} (h : sep ∉ a) :
    pySplitCh sep (a ++ sep :: rest) = a :: pySplitCh sep rest := by
  induction a with
  | nil =>
    simp only [List.nil_append, pySplitCh]
    cases hr : pySplitCh sep rest with
    | nil => simp
    | cons x xs => simp
  | cons c a ih =>
    have hc : ¬ c = sep := fun hcs => h (hcs ▸ List.mem_cons_self c a)
    have ha : sep ∉ a := fun hm => h (List.mem_cons_of_mem c hm)
    rw [List.cons_append, pySplitCh, ih ha]
    simp [hc]

theorem splitFirst_no_sep {sep : Char} : ∀ {cs : List Char}, sep ∉ cs →
    splitFirst sep cs = (cs, Option.none)
  | [], _ => rfl
  | c :: rest, h => by
    have hc : ¬ c = sep := fun hcs => h (hcs ▸ List.mem_cons_self c rest)
    have hr : sep ∉ rest := fun hm => h (List.mem_cons_of_mem c hm)
    rw [splitFirst, splitFirst_no_sep hr]
    simp [hc]

/-- First child bearing a name, as the spec's "the field bearing that
name" reads. -/
def findChild : FChildren → String → Option (String × Bool × FBody)
  | .nil, _ => Option.none
  | .cons n w b rest, k => if n = k then some (n, w, b) else findChild rest k

theorem get_field_eq_findChild : ∀ (cs : FChildren) (name : String),
    '.' ∉ name.data → FieldSet.get_field cs name = findChild cs name
  | .nil, _, _ => rfl
  | .cons n w b rest, name, h => by
    rw [FieldSet.get_field, findChild]
    rw [splitFirst_no_sep h]
    by_cases hn : n = name
    · rw [if_pos hn, if_pos hn]
    · rw [if_neg hn, if_neg hn]
      exact get_field_eq_findChild rest name h

theorem findChild_name : ∀ (cs : FChildren) (k : String) (r : String × Bool × FBody),
    findChild cs k = some r → r.1 = k
  | .nil, _, _, h => by simp [findChild] at h
  | .cons n w b rest, k, r, h => by
    rw [findChild] at h
    by_cases hn : n = k
    · rw [if_pos hn] at h
      cases h
      exact hn
    · rw [if_neg hn] at h
      exact findChild_name rest k r h

theorem findChild_none_iff : ∀ (cs : FChildren) (k : String),
    findChild cs k = Option.none ↔ k ∉ cs.names
  | .nil, k => by simp [findChild, FChildren.names]
  | .cons n w b rest, k => by
    rw [findChild, FChildren.names]
    by_cases hn : n = k
    · simp [hn]
    · simp only [if_neg hn, List.mem_cons]
      rw [findChild_none_iff rest k]
      constructor
      · intro h hk
        rcases hk with hk | hk
        · exact hn hk.symm
        · exact h hk
      · intro h hk
        exact h (Or.inr hk)

/-! ### C4 -/

/-- Claim C4 — for every raw value that is not a string (or, for a
multiple field, a raw list containing a non-string), `Field.accept` does
not raise (it is a total function of the model); it stores the message
`'Given value has incompatible type'` under the field's input name in
`form.errors` and converts the null value (`[]` if multiple, else `''`)
instead. -/
theorem C4_incompatible_type (spec : AtomSpec) (input_name : String) (md : MD)
    (errors : Errors) :
    (spec.multiple = false → ∀ n : Nat,
      MD.get md input_name (Raw.str "") = Raw.obj n →
      Field.accept spec input_name md errors =
        (spec.accS (Raw.str ""),
         odSet errors input_name "Given value has incompatible type")) ∧
    (spec.multiple = true → ∀ r ∈ MD.getall md input_name, r.isStr = false →
      Field.accept spec input_name md errors =
        (spec.accM [],
         odSet errors input_name "Given value has incompatible type")) := by
  constructor
  · intro hm n hv
    have hchk : Field.check_value_type input_name [MD.get md input_name (Raw.str "")]
        errors = (false, odSet errors input_name "Given value has incompatible type") := by
      rw [Field.check_value_type, if_neg (by simp [hv, Raw.isStr])]
    simp only [Field.accept, hm, Bool.false_eq_true, if_false, hchk]
  · intro hm r hr hstr
    have hchk : Field.check_value_type input_name (MD.getall md input_name) errors =
        (false, odSet errors input_name "Given value has incompatible type") := by
      rw [Field.check_value_type, if_neg ?_]
      simp only [List.all_eq_true, not_forall]
      exact ⟨r, hr, by simp [hstr]⟩
    simp only [Field.accept, hm, if_true, hchk, Bool.false_eq_true, if_false]

/-- Witness for C4 at a concrete field and multidict. -/
theorem C4_incompatible_type_witness :
    (({ multiple := false, accS := fun r => PyValue.pstr "", fpS := fun _ => Raw.str "",
        accM := fun _ => PyValue.none, fpM := fun _ => [],
        initial := Option.none } : AtomSpec).multiple = false ∧
      MD.get [("f", Raw.obj 7)] "f" (Raw.str "") = Raw.obj 7) ∧
    Field.accept
      { multiple := false, accS := fun r => PyValue.pstr "", fpS := fun _ => Raw.str "",
        accM := fun _ => PyValue.none, fpM := fun _ => [], initial := Option.none }
      "f" [("f", Raw.obj 7)] [] =
      (PyValue.pstr "", [("f", "Given value has incompatible type")]) := by
  refine ⟨⟨rfl, by decide⟩, ?_⟩
  have h := (C4_incompatible_type
    { multiple := false, accS := fun r => PyValue.pstr "", fpS := fun _ => Raw.str "",
      accM := fun _ => PyValue.none, fpM := fun _ => [], initial := Option.none }
    "f" [("f", Raw.obj 7)] []).1 rfl 7 (by decide)
  rw [h]
  rfl

/-! ### C5 -/

/-- Claim C5 — `FieldList.accept` traverses exactly the entries of the
`-indeces` input whose index string parses as a Python int, in submission
order: running the index loop on the submitted list is the same (same
result dict, same raw data, same errors) as running it on the sublist of
parsing entries, so a non-parsing index is skipped without raising and
without touching the form's errors. -/
theorem C5_index_filter (pfx : String) (w : Bool) (elem : FBody)
    (old : List (String × PyValue)) (idxs : List String)
    (result : List (String × PyValue)) (md : MD) (errs : Errors) :
    acceptIndeces pfx w elem old (idxs.filter pyIntParses) result md errs =
      acceptIndeces pfx w elem old idxs result md errs := by
  induction idxs generalizing result md errs with
  | nil => rfl
  | cons idx rest ih =>
    by_cases hp : pyIntParses idx
    · rw [List.filter_cons_of_pos hp]
      rw [acceptIndeces, acceptIndeces, if_pos hp, if_pos hp]
      by_cases hw : w
      · simp only [if_pos hw]
        exact ih _ _ _
      · simp only [if_neg hw]
        cases odGet old idx with
        | none => exact ih _ _ _
        | some ov => exact ih _ _ _
    · rw [List.filter_cons_of_neg hp]
      conv_rhs => rw [acceptIndeces]
      rw [if_neg hp]
      exact ih _ _ _

/-! ### C6 -/

/-- Claim C6 — `WSGIHandler` maps outcomes to HTTP responses: when the
wrapped application returns `STOP` the response status becomes
`404 NOT_FOUND`, and an `HttpException` with status `MOVED_PERMANENTLY`
or `SEE_OTHER` sets that status and adds a `Location` header carrying the
exception's URL bytes (utf-8 encoded if unicode). -/
theorem C6_outcomes (response : Response) (st : Nat) (url : PyStr)
    (h : st = MOVED_PERMANENTLY ∨ st = SEE_OTHER) :
    WSGIHandler.call response .stop = some { response with status := NOT_FOUND } ∧
    WSGIHandler.call response (.httpExc st url) =
      some { response with
             status := st,
             headers := response.headers ++ [("Location", url.toBytes)] } := by
  refine ⟨rfl, ?_⟩
  rw [WSGIHandler.call, process_http_exception]
  rw [if_pos h]

/-- Witness for C6 at a concrete response and redirect. -/
theorem C6_outcomes_witness :
    ((303 : Nat) = MOVED_PERMANENTLY ∨ (303 : Nat) = SEE_OTHER) ∧
    (WSGIHandler.call ⟨200, [], ""⟩ .stop = some ⟨404, [], ""⟩ ∧
     WSGIHandler.call ⟨200, [], ""⟩ (.httpExc 303 (.uni "/next")) =
       some ⟨303, [("Location", "/next")], ""⟩) := by
  refine ⟨Or.inr rfl, ?_⟩
  have h := C6_outcomes ⟨200, [], ""⟩ 303 (.uni "/next") (Or.inr rfl)
  exact ⟨h.1, h.2⟩

/-! ### C7 -/

/-- Claim C7 — `CookieAuth.handle` sets `env.user` to
`identify_user(env, identity)` exactly when the request carries the auth
cookie and the storage holds an identity under
`cookie_name + ':' + key`; when the cookie is absent, or the storage
lookup returns `None`, the next handler runs with `env.user = None`. -/
theorem C7_cookie_lookup {α β : Type} (cookie_name : String)
    (storageGet : String → Option String)
    (identify_user : AuthEnv α → String → α) (env : AuthEnv α)
    (next_handler : AuthEnv α → β) :
    (∀ key user_identity, odGet env.cookies cookie_name = some key →
      storageGet (cookie_name ++ ":" ++ key) = some user_identity →
      (CookieAuth.handle cookie_name storageGet identify_user env next_handler).1 =
        next_handler { env with user := some (some (identify_user env user_identity)) }) ∧
    (odGet env.cookies cookie_name = Option.none →
      (CookieAuth.handle cookie_name storageGet identify_user env next_handler).1 =
        next_handler { env with user := some Option.none }) ∧
    (∀ key, odGet env.cookies cookie_name = some key →
      storageGet (cookie_name ++ ":" ++ key) = Option.none →
      (CookieAuth.handle cookie_name storageGet identify_user env next_handler).1 =
        next_handler { env with user := some Option.none }) := by
  refine ⟨?_, ?_, ?_⟩
  · intro key user_identity hc hs
    simp only [CookieAuth.handle, hc, hs]
  · intro hc
    simp only [CookieAuth.handle, hc]
  · intro key hc hs
    simp only [CookieAuth.handle, hc, hs]

/-- Witness for C7: a concrete request whose cookie is present and whose
identity is in storage. -/
theorem C7_cookie_lookup_witness :
    (odGet ([("auth", "k")] : List (String × String)) "auth" = some "k" ∧
     (fun s => if s = "auth:k" then some "id1" else Option.none) ("auth" ++ ":" ++ "k") =
       some "id1") ∧
    (CookieAuth.handle "auth" (fun s => if s = "auth:k" then some "id1" else Option.none)
        (fun _ i => i) (⟨[("auth", "k")], Option.none⟩ : AuthEnv String)
        (fun e => e.user)).1 =
      (fun (e : AuthEnv String) => e.user)
        { (⟨[("auth", "k")], Option.none⟩ : AuthEnv String) with
          user := some (some "id1") } := by
  refine ⟨⟨by decide, by decide⟩, ?_⟩
  exact (C7_cookie_lookup "auth"
    (fun s => if s = "auth:k" then some "id1" else Option.none)
    (fun _ i => i) ⟨[("auth", "k")], Option.none⟩ (fun e => e.user)).1
    "k" "id1" (by decide) (by decide)

/-! ### C8 -/

/-- Refutation of claim C8 ("no state written while handling one request
is readable while handling another request") at a concrete input: an
identity stored by `login_identity` while handling a login request is
read back by `CookieAuth.handle` while handling a later request that
carries the cookie — the (spec-modelled) `LocalMemStorage` default is
in-process mutable state shared across requests. -/
theorem C8_cross_request_read :
    (CookieAuth.handle "auth"
        (localMemGet (CookieAuth.login_identity "auth" "deadbeef" "42" []))
        (fun _ i => i) (⟨[("auth", "deadbeef")], Option.none⟩ : AuthEnv String)
        (fun e => e.user)).1 = some (some "42") := by
  decide

/-- Claim C8 as amended — request handling does share mutable state
across requests, exactly through the pluggable auth storage: an identity
written by `login_identity` under `cookie_name + ':' + key` while
handling one request is readable by `handle` while handling any later
request that carries that cookie. -/
theorem C8_storage_shared {α β : Type} (cookie_name key identity : String)
    (storage : List (String × String))
    (identify_user : AuthEnv α → String → α) (env : AuthEnv α)
    (next_handler : AuthEnv α → β)
    (h : odGet env.cookies cookie_name = some key) :
    (CookieAuth.handle cookie_name
        (localMemGet (CookieAuth.login_identity cookie_name key identity storage))
        identify_user env next_handler).1 =
      next_handler { env with user := some (some (identify_user env identity)) } := by
  have hget : localMemGet (CookieAuth.login_identity cookie_name key identity storage)
      (cookie_name ++ ":" ++ key) = some identity := by
    rw [CookieAuth.login_identity, localMemGet, localMemSet]
    exact odGet_odSet_self storage (cookie_name ++ ":" ++ key) identity
  simp only [CookieAuth.handle, h, hget]

/-- Witness for the amended C8. -/
theorem C8_storage_shared_witness :
    (odGet ([("auth", "cafe")] : List (String × String)) "auth" = some "cafe") ∧
    (CookieAuth.handle "auth"
        (localMemGet (CookieAuth.login_identity "auth" "cafe" "77" [("other", "x")]))
        (fun _ i => i) (⟨[("auth", "cafe")], Option.none⟩ : AuthEnv String)
        (fun e => e.user)).1 =
      (fun (e : AuthEnv String) => e.user)
        { (⟨[("auth", "cafe")], Option.none⟩ : AuthEnv String) with
          user := some (some "77") } := by
  exact ⟨by decide, C8_storage_shared "auth" "cafe" "77" [("other", "x")]
    (fun _ i => i) ⟨[("auth", "cafe")], Option.none⟩ (fun e => e.user) (by decide)⟩

/-! ### C9 -/

/-- Claim C9 — on their common domain (every element a `BaseField`,
`FieldBlock` or `NoFieldWidget` instance), the duplicated partition
helpers agree: `HasFields.get_fields` (base.py) returns exactly
`_get_fields` (fields.py) without raising, and `HasFields.get_widgets`
returns exactly `_get_widgets`. -/
theorem C9_helpers_equivalent (lst : List FormItem)
    (h : ∀ it ∈ lst, it.isKnown = true) :
    HasFields.get_fields lst = .ok (_get_fields lst) ∧
    HasFields.get_widgets lst = _get_widgets lst := by
  induction lst with
  | nil => exact ⟨rfl, rfl⟩
  | cons it rest ih =>
    have hrest := ih (fun x hx => h x (List.mem_cons_of_mem it hx))
    have hit := h it (List.mem_cons_self it rest)
    cases it with
    | basefield n w =>
      cases w with
      | none =>
        exact ⟨by simp [HasFields.get_fields, _get_fields, hrest.1, Except.map],
               by simp [HasFields.get_widgets, _get_widgets, hrest.2]⟩
      | some wv =>
        exact ⟨by simp [HasFields.get_fields, _get_fields, hrest.1, Except.map],
               by simp [HasFields.get_widgets, _get_widgets, hrest.2]⟩
    | fieldblock fs =>
      exact ⟨by simp [HasFields.get_fields, _get_fields, hrest.1, Except.map],
             by simp [HasFields.get_widgets, _get_widgets, hrest.2]⟩
    | nofieldwidget i =>
      exact ⟨by simp [HasFields.get_fields, _get_fields, hrest.1, Except.map],
             by simp [HasFields.get_widgets, _get_widgets, hrest.2]⟩
    | other i => simp [FormItem.isKnown] at hit

/-- Witness for C9 on a mixed concrete list. -/
theorem C9_helpers_equivalent_witness :
    (∀ it ∈ [FormItem.basefield "a" (some 1),
             FormItem.fieldblock [FormItem.basefield "b" (some 2)],
             FormItem.nofieldwidget 7], it.isKnown = true) ∧
    (HasFields.get_fields
        [FormItem.basefield "a" (some 1),
         FormItem.fieldblock [FormItem.basefield "b" (some 2)],
         FormItem.nofieldwidget 7] =
      .ok (_get_fields
        [FormItem.basefield "a" (some 1),
         FormItem.fieldblock [FormItem.basefield "b" (some 2)],
         FormItem.nofieldwidget 7]) ∧
     HasFields.get_widgets
        [FormItem.basefield "a" (some 1),
         FormItem.fieldblock [FormItem.basefield "b" (some 2)],
         FormItem.nofieldwidget 7] =
      _get_widgets
        [FormItem.basefield "a" (some 1),
         FormItem.fieldblock [FormItem.basefield "b" (some 2)],
         FormItem.nofieldwidget 7]) := by
  have hk : ∀ it ∈ [FormItem.basefield "a" (some 1),
      FormItem.fieldblock [FormItem.basefield "b" (some 2)],
      FormItem.nofieldwidget 7], FormItem.isKnown it = true := by
    intro it hit
    simp only [List.mem_cons, List.not_mem_nil, or_false] at hit
    rcases hit with rfl | rfl | rfl <;> rfl
  exact ⟨hk, C9_helpers_equivalent _ hk⟩

/-! ### C10 -/

/-- Claim C10 — password round trip: for every raw password, every
algorithm name and salt free of `'$'` (true of every hashlib algorithm
name), and every digest function whose output is free of `'$'` (true of
`hexdigest`), `check_password(raw, encrypt_password(raw, algo, salt))`
returns `True`. -/
theorem C10_password_roundtrip (hexdigest : String → String → String)
    (raw_password algorithm salt : String)
    (hhex : ∀ a s, '$' ∉ (hexdigest a s).data)
    (halgo : '$' ∉ algorithm.data) (hsalt : '$' ∉ salt.data) :
    check_password hexdigest raw_password
      (encrypt_password hexdigest raw_password algorithm salt) = some true := by
  rw [check_password]
  have hdata : (encrypt_password hexdigest raw_password algorithm salt).data =
      algorithm.data ++ '$' :: (salt.data ++ '$' ::
        (hexdigest algorithm (salt ++ raw_password)).data) := by
    rw [encrypt_password]
    simp [String.data_append]
  have hsplit : pySplit (encrypt_password hexdigest raw_password algorithm salt) '$' =
      [algorithm, salt, hexdigest algorithm (salt ++ raw_password)] := by
    rw [pySplit, hdata, pySplitCh_append halgo, pySplitCh_append hsalt,
      pySplitCh_no_sep (hhex algorithm (salt ++ raw_password))]
    rfl
  rw [hsplit]
  simp

/-- Witness for C10 with a concrete digest function, algorithm and salt. -/
theorem C10_password_roundtrip_witness :
    ((∀ a s, '$' ∉ ((fun (_ _ : String) => "ab1") a s).data) ∧
      '$' ∉ "sha1".data ∧ '$' ∉ "s0".data) ∧
    check_password (fun _ _ => "ab1") "pw"
      (encrypt_password (fun _ _ => "ab1") "pw" "sha1" "s0") = some true := by
  refine ⟨⟨fun a s => by show '$' ∉ "ab1".data; decide, by decide, by decide⟩, ?_⟩
  exact C10_password_roundtrip (fun _ _ => "ab1") "pw" "sha1" "s0"
    (fun a s => by show '$' ∉ "ab1".data; decide) (by decide) (by decide)

/-! ### C3 -/

/-- Refutation of the universally-quantified part of claim C3 ("the names
of a container's fields are pairwise distinct strings") at a concrete
input: nothing in `FieldSet.__init__`/`_get_fields` enforces uniqueness,
so a fields list with two fields named `"x"` passes through unchanged. -/
theorem C3_duplicate_names :
    ¬ List.Pairwise (· ≠ ·)
      (fieldNames (_get_fields
        [FormItem.basefield "x" (some 1), FormItem.basefield "x" (some 2)])) := by
  decide

/-- Claim C3 as amended — field names need not be distinct; for a dotless
name, `FieldSet.get_field` returns the first field bearing that name (in
particular the unique such field when names are pairwise distinct), or
`None` if no field bears it. -/
theorem C3_get_field_first (cs : FChildren) (name : String)
    (h : '.' ∉ name.data) :
    FieldSet.get_field cs name = findChild cs name ∧
    (∀ r, findChild cs name = some r → r.1 = name) ∧
    (findChild cs name = Option.none ↔ name ∉ cs.names) :=
  ⟨get_field_eq_findChild cs name h, findChild_name cs name,
    findChild_none_iff cs name⟩

/-- Witness for the amended C3: a set with a shadowed duplicate name. -/
theorem C3_get_field_first_witness :
    ('.' ∉ "x".data) ∧
    (FieldSet.get_field
        (.cons "x" true (.atom ⟨false, fun _ => .none, fun _ => Raw.str "",
            fun _ => .none, fun _ => [], Option.none⟩)
          (.cons "x" false (.fieldset .nil) .nil)) "x" =
      findChild
        (.cons "x" true (.atom ⟨false, fun _ => .none, fun _ => Raw.str "",
            fun _ => .none, fun _ => [], Option.none⟩)
          (.cons "x" false (.fieldset .nil) .nil)) "x" ∧
     (∀ r, findChild
        (.cons "x" true (.atom ⟨false, fun _ => .none, fun _ => Raw.str "",
            fun _ => .none, fun _ => [], Option.none⟩)
          (.cons "x" false (.fieldset .nil) .nil)) "x" = some r → r.1 = "x") ∧
     (findChild
        (.cons "x" true (.atom ⟨false, fun _ => .none, fun _ => Raw.str "",
            fun _ => .none, fun _ => [], Option.none⟩)
          (.cons "x" false (.fieldset .nil) .nil)) "x" = Option.none ↔
      "x" ∉ FChildren.names
        (.cons "x" true (.atom ⟨false, fun _ => .none, fun _ => Raw.str "",
            fun _ => .none, fun _ => [], Option.none⟩)
          (.cons "x" false (.fieldset .nil) .nil)))) := by
  exact ⟨by decide, C3_get_field_first _ "x" (by decide)⟩

/-! ### C2 -/

/-- Names of the read-only children (`'w' ∉ field.permissions`). -/
def readonlyNames : FChildren → List String
  | .nil => []
  | .cons n w _ rest => if w then readonlyNames rest else n :: readonlyNames rest

/-- Names of the writable children. -/
def writableNames : FChildren → List String
  | .nil => []
  | .cons n w _ rest => if w then n :: writableNames rest else writableNames rest

theorem mem_names_of_mem_readonlyNames : ∀ (cs : FChildren) {n : String},
    n ∈ readonlyNames cs → n ∈ cs.names
  | .nil, _, h => by simp [readonlyNames] at h
  | .cons m w b rest, n, h => by
    rw [readonlyNames] at h
    rw [FChildren.names]
    by_cases hw : w
    · rw [if_pos hw] at h
      exact List.mem_cons_of_mem m (mem_names_of_mem_readonlyNames rest h)
    · rw [if_neg hw] at h
      rcases List.mem_cons.mp h with h | h
      · exact h ▸ List.mem_cons_self m _
      · exact List.mem_cons_of_mem m (mem_names_of_mem_readonlyNames rest h)

theorem mem_names_of_mem_writableNames : ∀ (cs : FChildren) {n : String},
    n ∈ writableNames cs → n ∈ cs.names
  | .nil, _, h => by simp [writableNames] at h
  | .cons m w b rest, n, h => by
    rw [writableNames] at h
    rw [FChildren.names]
    by_cases hw : w
    · rw [if_pos hw] at h
      rcases List.mem_cons.mp h with h | h
      · exact h ▸ List.mem_cons_self m _
      · exact List.mem_cons_of_mem m (mem_names_of_mem_writableNames rest h)
    · rw [if_neg hw] at h
      exact List.mem_cons_of_mem m (mem_names_of_mem_writableNames rest h)

theorem readonly_not_writable : ∀ (cs : FChildren) {n : String},
    List.Pairwise (· ≠ ·) cs.names → n ∈ readonlyNames cs →
    n ∉ writableNames cs
  | .nil, _, _, h => by simp [readonlyNames] at h
  | .cons m w b rest, n, hp, h => by
    rw [FChildren.names] at hp
    rw [List.pairwise_cons] at hp
    rw [readonlyNames] at h
    rw [writableNames]
    by_cases hw : w
    · rw [if_pos hw] at h
      rw [if_pos hw]
      intro hmem
      rcases List.mem_cons.mp hmem with rfl | hmem
      · exact hp.1 n (mem_names_of_mem_readonlyNames rest h) rfl
      · exact readonly_not_writable rest hp.2 h hmem
    · rw [if_neg hw] at h
      rw [if_neg hw]
      rcases List.mem_cons.mp h with rfl | h
      · intro hmem
        exact hp.1 n (mem_names_of_mem_writableNames rest hmem) rfl
      · exact readonly_not_writable rest hp.2 h

/-- The `result` dict of the `FieldSet.accept` loop is only ever assigned
at writable children's names. -/
theorem acceptChildren_result_stable : ∀ (cs : FChildren) (pfx : String)
    (d result : List (String × PyValue)) (md : MD) (errs : Errors) (n : String),
    n ∉ writableNames cs →
    odGet (acceptChildren pfx cs d result md errs).1 n = odGet result n
  | .nil, pfx, d, result, md, errs, n, _ => by
    rw [acceptChildren]
  | .cons m w b rest, pfx, d, result, md, errs, n, h => by
    rw [writableNames] at h
    rw [acceptChildren]
    by_cases hw : w
    · rw [if_pos hw] at h
      simp only [hw, if_true]
      have hne : n ≠ m := fun hnm => h (hnm ▸ List.mem_cons_self m _)
      have hrest : n ∉ writableNames rest := fun hm => h (List.mem_cons_of_mem m hm)
      rw [acceptChildren_result_stable rest pfx d _ _ _ n hrest]
      exact odGet_odSet_other result m n _ hne
    · rw [if_neg hw] at h
      simp only [hw, Bool.false_eq_true, if_false]
      exact acceptChildren_result_stable rest pfx d result _ errs n h

/-- Accumulator invariants of the `FieldList.accept` index loop with a
read-only element: entries of `result` only ever come from `old`,
agreement with `old` at a key is preserved, and every traversed index
ends up agreeing with `old`. -/
theorem acceptIndeces_readonly_aux (pfx : String) (elem : FBody)
    (old : List (String × PyValue)) (idxs : List String) :
    ∀ (result : List (String × PyValue)) (md : MD) (errs : Errors),
    (∀ k, odGet result k = Option.none ∨ odGet result k = odGet old k) →
    (∀ k, odGet (acceptIndeces pfx false elem old idxs result md errs).1 k =
            Option.none ∨
          odGet (acceptIndeces pfx false elem old idxs result md errs).1 k =
            odGet old k) ∧
    (∀ k, odGet result k = odGet old k →
          odGet (acceptIndeces pfx false elem old idxs result md errs).1 k =
            odGet old k) ∧
    (∀ idx ∈ idxs, pyIntParses idx = true →
          odGet (acceptIndeces pfx false elem old idxs result md errs).1 idx =
            odGet old idx) := by
  induction idxs with
  | nil =>
    intro result md errs hinv
    rw [acceptIndeces]
    exact ⟨hinv, fun k hk => hk, fun idx h => absurd h (List.not_mem_nil idx)⟩
  | cons idx rest ih =>
    intro result md errs hinv
    by_cases hp : pyIntParses idx
    · rw [acceptIndeces, if_pos hp]
      simp only [Bool.false_eq_true, if_false]
      cases hold : odGet old idx with
      | none =>
        obtain ⟨h1, h2, h3⟩ := ih result md errs hinv
        refine ⟨h1, h2, ?_⟩
        intro idx' hmem hp'
        rcases List.mem_cons.mp hmem with rfl | hmem
        · rcases h1 idx' with h | h
          · rw [h, hold]
          · exact h
        · exact h3 idx' hmem hp'
      | some ov =>
        have hinv' : ∀ k, odGet (odSet result idx ov) k = Option.none ∨
            odGet (odSet result idx ov) k = odGet old k := by
          intro k
          by_cases hk : k = idx
          · subst hk
            rw [odGet_odSet_self, hold]
            exact Or.inr rfl
          · rw [odGet_odSet_other result idx k ov hk]
            exact hinv k
        obtain ⟨h1, h2, h3⟩ := ih (odSet result idx ov) md errs hinv'
        refine ⟨h1, ?_, ?_⟩
        · intro k hk
          by_cases hk' : k = idx
          · subst hk'
            exact h2 k (by rw [odGet_odSet_self, hold])
          · exact h2 k (by rw [odGet_odSet_other result idx k ov hk']; exact hk)
        · intro idx' hmem hp'
          rcases List.mem_cons.mp hmem with rfl | hmem
          · exact h2 idx' (by rw [odGet_odSet_self, hold])
          · exact h3 idx' hmem hp'
    · rw [acceptIndeces, if_neg hp]
      obtain ⟨h1, h2, h3⟩ := ih result md errs hinv
      refine ⟨h1, h2, ?_⟩
      intro idx' hmem hp'
      rcases List.mem_cons.mp hmem with rfl | hmem
      · exact absurd hp' (by simp [hp])
      · exact h3 idx' hmem hp'

/-- Claim C2 — read-only fields are never overwritten by submitted data:
in `FieldSet.accept` the accepted dict keeps the stored `python_data`
value at every read-only child's name (names being pairwise distinct, the
spec's standing invariant), whatever the raw data holds; in
`FieldList.accept` with a read-only element, every traversed index ends
up with exactly its stored `python_data` value (absent entries stay
absent). -/
theorem C2_readonly_preserved :
    (∀ (pfx name : String) (cs : FChildren) (stored : PyValue) (md : MD)
       (errs : Errors) (n : String),
      List.Pairwise (· ≠ ·) cs.names → n ∈ readonlyNames cs →
      odGet ((acceptBody pfx name (.fieldset cs) stored md errs).1.asDict) n =
        odGet stored.asDict n) ∧
    (∀ (pfx : String) (elem : FBody) (old : List (String × PyValue))
       (idxs : List String) (md : MD) (errs : Errors) (idx : String),
      idx ∈ idxs → pyIntParses idx = true →
      odGet (acceptIndeces pfx false elem old idxs [] md errs).1 idx =
        odGet old idx) := by
  constructor
  · intro pfx name cs stored md errs n hp hro
    rw [acceptBody]
    simp only [PyValue.asDict]
    exact acceptChildren_result_stable cs _ _ _ md errs n
      (readonly_not_writable cs hp hro)
  · intro pfx elem old idxs md errs idx hmem hp
    exact (acceptIndeces_readonly_aux pfx elem old idxs [] md errs
      (fun k => Or.inl rfl)).2.2 idx hmem hp

/-- Witness for C2: a set with one read-only child whose raw data was
tampered with, and a list with a read-only element. -/
theorem C2_readonly_preserved_witness :
    (List.Pairwise (· ≠ ·) (FChildren.names
        (.cons "x" false (.atom ⟨false, fun r => .pstr "", fun _ => Raw.str "",
          fun _ => .none, fun _ => [], Option.none⟩) .nil)) ∧
      "x" ∈ readonlyNames
        (.cons "x" false (.atom ⟨false, fun r => .pstr "", fun _ => Raw.str "",
          fun _ => .none, fun _ => [], Option.none⟩) .nil) ∧
      "1" ∈ ["1"] ∧ pyIntParses "1" = true) ∧
    odGet ((acceptBody "" "fs"
        (.fieldset (.cons "x" false (.atom ⟨false, fun r => .pstr "",
          fun _ => Raw.str "", fun _ => .none, fun _ => [], Option.none⟩) .nil))
        (.vdict [("x", .pstr "keep")]) [("fs.x", Raw.str "attack")] []).1.asDict)
      "x" = odGet (PyValue.asDict (.vdict [("x", .pstr "keep")])) "x" ∧
    odGet ((acceptIndeces "fl." false
        (.atom ⟨false, fun r => .pstr "", fun _ => Raw.str "",
          fun _ => .none, fun _ => [], Option.none⟩)
        [("1", .pstr "kept")] ["1"] [] [("fl.1", Raw.str "attack")] []).1) "1" =
      odGet [("1", PyValue.pstr "kept")] "1" := by
  refine ⟨⟨?_, ?_, ?_, ?_⟩, ?_, ?_⟩
  · simp [FChildren.names]
  · simp [readonlyNames]
  · simp
  · decide
  · exact C2_readonly_preserved.1 "" "fs" _ (.vdict [("x", .pstr "keep")])
      [("fs.x", Raw.str "attack")] [] "x" (by simp [FChildren.names])
      (by simp [readonlyNames])
  · exact C2_readonly_preserved.2 "fl." _ [("1", .pstr "kept")] ["1"]
      [("fl.1", Raw.str "attack")] [] "1" (by simp) (by decide)

/-! ### C1 — key space of a field

The raw-data keys a field named `n` under prefix `p` ever reads or
writes all have the shape `p ++ n ++ s` where `s` is empty (the atomic
input name), starts with `'.'` (keys of nested fields) or starts with
`'-'` (the `-indeces` key).  Sibling names that are free of `'.'` and
`'-'` therefore own disjoint key sets. -/

/-- Field names free of the separator characters `'.'` and `'-'` used to
build input names. -/
def NameFree (s : String) : Prop := ∀ c ∈ s.data, c ≠ '.' ∧ c ≠ '-'

instance (s : String) : Decidable (NameFree s) := by
  unfold NameFree
  infer_instance

/-- Shape of the part of a key after `prefix ++ name`. -/
def SuffixOK (s : String) : Prop :=
  s.data = [] ∨ s.data.head? = some '.' ∨ s.data.head? = some '-'

/-- The key `k` belongs to the key space of the field named `n` under
prefix `p`. -/
def KeyOf (p n k : String) : Prop := ∃ s, k = p ++ n ++ s ∧ SuffixOK s

theorem KeyOf_self (p n : String) : KeyOf p n (p ++ n) :=
  ⟨"", by rw [String.append_empty], Or.inl rfl⟩

theorem KeyOf_indeces (p n : String) : KeyOf p n (p ++ n ++ "-indeces") :=
  ⟨"-indeces", rfl, Or.inr (Or.inr rfl)⟩

/-- A key of a child named `n'` under the extended prefix
`p ++ n ++ "."` is a key of the field named `n` under `p`. -/
theorem KeyOf_extend (p n n' k : String) (h : KeyOf (p ++ n ++ ".") n' k) :
    KeyOf p n k := by
  obtain ⟨s, hk, _⟩ := h
  refine ⟨"." ++ n' ++ s, ?_, Or.inr (Or.inl ?_)⟩
  · rw [hk]
    apply String.ext
    simp [String.data_append]
  · simp [String.data_append]

theorem decDigit_not_sep {c : Char} (h : c ∈ decDigits) : c ≠ '.' ∧ c ≠ '-' := by
  fin_cases h <;> exact ⟨by decide, by decide⟩

/-- Rendered indices are valid separator-free names. -/
theorem NameFree_repr (i : Nat) : NameFree (Nat.repr i) :=
  fun c hc => decDigit_not_sep (repr_mem_decDigits i c hc)

theorem prefix_free_append {a1 a2 s1 s2 : List Char}
    (h : a1 ++ s1 = a2 ++ s2)
    (ha1 : ∀ c ∈ a1, c ≠ '.' ∧ c ≠ '-') (ha2 : ∀ c ∈ a2, c ≠ '.' ∧ c ≠ '-')
    (hs1 : s1 = [] ∨ s1.head? = some '.' ∨ s1.head? = some '-')
    (hs2 : s2 = [] ∨ s2.head? = some '.' ∨ s2.head? = some '-') :
    a1 = a2 := by
  rcases List.append_eq_append_iff.mp h with ⟨t, ht, hs⟩ | ⟨t, ht, hs⟩
  · cases t with
    | nil => rw [ht, List.append_nil]
    | cons c cs =>
      exfalso
      have hc : c ∈ a2 := by rw [ht]; simp
      have hsep := ha2 c hc
      have hhead : s1.head? = some c := by rw [hs]; rfl
      rcases hs1 with h1 | h1 | h1
      · rw [h1] at hhead
        cases hhead
      · rw [h1] at hhead
        exact hsep.1 (by injection hhead with h'; exact h'.symm)
      · rw [h1] at hhead
        exact hsep.2 (by injection hhead with h'; exact h'.symm)
  · cases t with
    | nil => rw [ht, List.append_nil]
    | cons c cs =>
      exfalso
      have hc : c ∈ a1 := by rw [ht]; simp
      have hsep := ha1 c hc
      have hhead : s2.head? = some c := by rw [hs]; rfl
      rcases hs2 with h1 | h1 | h1
      · rw [h1] at hhead
        cases hhead
      · rw [h1] at hhead
        exact hsep.1 (by injection hhead with h'; exact h'.symm)
      · rw [h1] at hhead
        exact hsep.2 (by injection hhead with h'; exact h'.symm)

/-- Distinct separator-free sibling names own disjoint key spaces. -/
theorem keys_disjoint {p n1 n2 k : String} (hne : n1 ≠ n2)
    (h1 : NameFree n1) (h2 : NameFree n2)
    (hk1 : KeyOf p n1 k) (hk2 : KeyOf p n2 k) : False := by
  obtain ⟨s1, hk1, hs1⟩ := hk1
  obtain ⟨s2, hk2, hs2⟩ := hk2
  have hdata : p.data ++ n1.data ++ s1.data = p.data ++ n2.data ++ s2.data := by
    have := hk1 ▸ hk2
    calc p.data ++ n1.data ++ s1.data = (p ++ n1 ++ s1).data := by
          simp [String.data_append]
      _ = (p ++ n2 ++ s2).data := by rw [← hk1, ← hk2]
      _ = p.data ++ n2.data ++ s2.data := by simp [String.data_append]
  rw [List.append_assoc, List.append_assoc] at hdata
  have hcancel := List.append_cancel_left hdata
  have : n1.data = n2.data := prefix_free_append hcancel h1 h2 hs1 hs2
  exact hne (String.ext this)

/-- The `-indeces` key of a list named `n` is not a key of any field
under the extended prefix `p ++ n ++ "."`. -/
theorem indeces_key_not_nested {p n n' k : String}
    (h : KeyOf (p ++ n ++ ".") n' k) : k ≠ p ++ n ++ "-indeces" := by
  obtain ⟨s, hk, _⟩ := h
  intro heq
  rw [heq] at hk
  have hdata : p.data ++ (n.data ++ ('-' :: "indeces".data)) =
      p.data ++ (n.data ++ ('.' :: (n'.data ++ s.data))) := by
    calc p.data ++ (n.data ++ ('-' :: "indeces".data))
        = (p ++ n ++ "-indeces").data := by simp [String.data_append]
      _ = (p ++ n ++ "." ++ n' ++ s).data := by rw [hk]
      _ = p.data ++ (n.data ++ ('.' :: (n'.data ++ s.data))) := by
          simp [String.data_append]
  have h1 := List.append_cancel_left hdata
  have h2 := List.append_cancel_left h1
  cases h2

theorem MD.getall_map_ne (vs : List Raw) (k k' : String) (h : k' ≠ k) :
    MD.getall (vs.map (fun v => (k, v))) k' = [] := by
  induction vs with
  | nil => rfl
  | cons v rest ih => simpa [MD.getall, Ne.symm h] using ih

theorem MD.getall_map_self (vs : List Raw) (k : String) :
    MD.getall (vs.map (fun v => (k, v))) k = vs := by
  induction vs with
  | nil => rfl
  | cons v rest ih => simpa [MD.getall] using ih

theorem MD.getall_addAll_other (md : MD) (k k' : String) (vs : List Raw)
    (h : k' ≠ k) : MD.getall (MD.addAll md k vs) k' = MD.getall md k' := by
  rw [MD.addAll, MD.getall_append, MD.getall_map_ne vs k k' h, List.append_nil]

theorem MD.getall_addAll_self (md : MD) (k : String) (vs : List Raw) :
    MD.getall (MD.addAll md k vs) k = MD.getall md k ++ vs := by
  rw [MD.addAll, MD.getall_append, MD.getall_map_self]

/-! Writes of `set_raw_value` stay inside the writing field's key space. -/

mutual
theorem setRawBody_outside : ∀ (pfx name : String) (b : FBody) (md : MD)
    (v : PyValue) (k : String), ¬ KeyOf pfx name k →
    MD.getall (setRawBody pfx name b md v) k = MD.getall md k
  | pfx, name, .atom spec, md, v, k, h => by
    have hk : k ≠ pfx ++ name := fun heq => h (heq ▸ KeyOf_self pfx name)
    rw [setRawBody]
    by_cases hm : spec.multiple
    · rw [if_pos hm, MD.getall_addAll_other _ _ _ _ hk,
        MD.getall_delall_other _ _ _ hk]
    · rw [if_neg hm, MD.getall_set_other _ _ _ _ hk]
  | pfx, name, .fieldset cs, md, v, k, h => by
    rw [setRawBody]
    exact setRawChildren_outside (pfx ++ name ++ ".") cs md v.asDict k
      (fun n' _ hk => h (KeyOf_extend pfx name n' k hk))
  | pfx, name, .fieldlist w elem, md, v, k, h => by
    have hk : k ≠ pfx ++ name ++ "-indeces" :=
      fun heq => h (heq ▸ KeyOf_indeces pfx name)
    rw [setRawBody]
    rw [MD.getall_addAll_other _ _ _ _ hk, MD.getall_delall_other _ _ _ hk]
    exact setRawIdxs_outside (pfx ++ name ++ ".") elem _ md _ k
      (fun i _ hki => h (KeyOf_extend pfx name (Nat.repr i) k hki))
termination_by pfx name b => (sizeOf b, 0)
theorem setRawChildren_outside : ∀ (pfx : String) (cs : FChildren) (md : MD)
    (d : List (String × PyValue)) (k : String),
    (∀ n' ∈ cs.names, ¬ KeyOf pfx n' k) →
    MD.getall (setRawChildren pfx cs md d) k = MD.getall md k
  | pfx, .nil, md, d, k, _ => by rw [setRawChildren]
  | pfx, .cons n w b rest, md, d, k, h => by
    rw [setRawChildren]
    rw [setRawChildren_outside pfx rest _ d k
      (fun n' hn' => h n' (List.mem_cons_of_mem n hn'))]
    exact setRawBody_outside pfx n b md _ k (h n (by rw [FChildren.names]; simp))
termination_by pfx cs => (sizeOf cs, 0)
theorem setRawIdxs_outside : ∀ (pfx : String) (elem : FBody)
    (d : List (String × PyValue)) (md : MD) (idxs : List Nat) (k : String),
    (∀ i ∈ idxs, ¬ KeyOf pfx (Nat.repr i) k) →
    MD.getall (setRawIdxs pfx elem d md idxs) k = MD.getall md k
  | pfx, elem, d, md, [], k, _ => by rw [setRawIdxs]
  | pfx, elem, d, md, i :: rest, k, h => by
    rw [setRawIdxs]
    rw [setRawIdxs_outside pfx elem d _ rest k
      (fun i' hi' => h i' (List.mem_cons_of_mem i hi'))]
    exact setRawBody_outside pfx (Nat.repr i) elem md _ k (h i (by simp))
termination_by pfx elem d md idxs => (sizeOf elem, idxs.length + 1)
end

/-! The content `set_raw_value` leaves at any single key depends on the
input multidict only through that key's former content. -/

mutual
theorem setRawBody_pointwise : ∀ (pfx name : String) (b : FBody)
    (md1 md2 : MD) (v : PyValue) (k : String),
    MD.getall md1 k = MD.getall md2 k →
    MD.getall (setRawBody pfx name b md1 v) k =
      MD.getall (setRawBody pfx name b md2 v) k
  | pfx, name, .atom spec, md1, md2, v, k, h => by
    rw [setRawBody, setRawBody]
    by_cases hm : spec.multiple
    · rw [if_pos hm, if_pos hm]
      by_cases hk : k = pfx ++ name
      · subst hk
        rw [MD.getall_addAll_self, MD.getall_addAll_self,
          MD.getall_delall_self, MD.getall_delall_self]
      · rw [MD.getall_addAll_other _ _ _ _ hk, MD.getall_addAll_other _ _ _ _ hk,
          MD.getall_delall_other _ _ _ hk, MD.getall_delall_other _ _ _ hk, h]
    · rw [if_neg hm, if_neg hm]
      by_cases hk : k = pfx ++ name
      · subst hk
        rw [MD.getall_set_self, MD.getall_set_self]
      · rw [MD.getall_set_other _ _ _ _ hk, MD.getall_set_other _ _ _ _ hk, h]
  | pfx, name, .fieldset cs, md1, md2, v, k, h => by
    rw [setRawBody, setRawBody]
    exact setRawChildren_pointwise (pfx ++ name ++ ".") cs md1 md2 v.asDict k h
  | pfx, name, .fieldlist w elem, md1, md2, v, k, h => by
    rw [setRawBody, setRawBody]
    by_cases hk : k = pfx ++ name ++ "-indeces"
    · subst hk
      rw [MD.getall_addAll_self, MD.getall_addAll_self,
        MD.getall_delall_self, MD.getall_delall_self]
    · rw [MD.getall_addAll_other _ _ _ _ hk, MD.getall_addAll_other _ _ _ _ hk,
        MD.getall_delall_other _ _ _ hk, MD.getall_delall_other _ _ _ hk]
      exact setRawIdxs_pointwise (pfx ++ name ++ ".") elem _ md1 md2 _ k h
termination_by pfx name b => (sizeOf b, 0)
theorem setRawChildren_pointwise : ∀ (pfx : String) (cs : FChildren)
    (md1 md2 : MD) (d : List (String × PyValue)) (k : String),
    MD.getall md1 k = MD.getall md2 k →
    MD.getall (setRawChildren pfx cs md1 d) k =
      MD.getall (setRawChildren pfx cs md2 d) k
  | pfx, .nil, md1, md2, d, k, h => by
    rw [setRawChildren, setRawChildren]
    exact h
  | pfx, .cons n w b rest, md1, md2, d, k, h => by
    rw [setRawChildren, setRawChildren]
    exact setRawChildren_pointwise pfx rest _ _ d k
      (setRawBody_pointwise pfx n b md1 md2 _ k h)
termination_by pfx cs => (sizeOf cs, 0)
theorem setRawIdxs_pointwise : ∀ (pfx : String) (elem : FBody)
    (d : List (String × PyValue)) (md1 md2 : MD) (idxs : List Nat) (k : String),
    MD.getall md1 k = MD.getall md2 k →
    MD.getall (setRawIdxs pfx elem d md1 idxs) k =
      MD.getall (setRawIdxs pfx elem d md2 idxs) k
  | pfx, elem, d, md1, md2, [], k, h => by
    rw [setRawIdxs, setRawIdxs]
    exact h
  | pfx, elem, d, md1, md2, i :: rest, k, h => by
    rw [setRawIdxs, setRawIdxs]
    exact setRawIdxs_pointwise pfx elem d _ _ rest k
      (setRawBody_pointwise pfx (Nat.repr i) elem md1 md2 _ k h)
termination_by pfx elem d md1 md2 idxs => (sizeOf elem, idxs.length + 1)
end

/-- Membership of a (name, writable, body) child in a `FieldSet`'s
children. -/
def HasChild (n : String) (w : Bool) (b : FBody) : FChildren → Prop
  | .nil => False
  | .cons m w' b' rest => (m = n ∧ w' = w ∧ b' = b) ∨ HasChild n w b rest

theorem HasChild_mem_names : ∀ {cs : FChildren} {n : String} {w : Bool}
    {b : FBody}, HasChild n w b cs → n ∈ cs.names
  | .nil, _, _, _, h => absurd h (by rw [HasChild]; exact id)
  | .cons m w' b' rest, n, w, b, h => by
    rw [HasChild] at h
    rw [FChildren.names]
    rcases h with ⟨rfl, -, -⟩ | h
    · exact List.mem_cons_self m _
    · exact List.mem_cons_of_mem m (HasChild_mem_names h)

/-- Inside `FieldSet.set_raw_value` starting from a multidict empty on a
child's key space, that child's keys end up with exactly the content the
child's own `set_raw_value` writes from scratch. -/
theorem setRawChildren_at_child : ∀ (pfx : String) (cs : FChildren) (md : MD)
    (dv : List (String × PyValue)) (n : String) (w : Bool) (b : FBody),
    HasChild n w b cs → List.Pairwise (· ≠ ·) cs.names →
    (∀ m ∈ cs.names, NameFree m) →
    ∀ k, KeyOf pfx n k → MD.getall md k = [] →
    MD.getall (setRawChildren pfx cs md dv) k =
      MD.getall (setRawBody pfx n b [] ((odGet dv n).getD .none)) k
  | pfx, .nil, md, dv, n, w, b, hc, _, _, k, _, _ =>
    absurd hc (by rw [HasChild]; exact id)
  | pfx, .cons m w' b' rest, md, dv, n, w, b, hc, hpw, hnf, k, hk, hmd => by
    rw [HasChild] at hc
    rw [FChildren.names] at hpw hnf
    rw [List.pairwise_cons] at hpw
    rw [setRawChildren]
    rcases hc with ⟨rfl, rfl, rfl⟩ | hrest
    · rw [setRawChildren_outside pfx rest _ dv k ?_]
      · exact setRawBody_pointwise pfx m b' md [] _ k (by rw [hmd]; rfl)
      · intro m' hm' hk'
        exact keys_disjoint (hpw.1 m' hm') (hnf m (by simp))
          (hnf m' (List.mem_cons_of_mem m hm')) hk hk'
    · have hmem : n ∈ rest.names := HasChild_mem_names hrest
      have hne : m ≠ n := hpw.1 n hmem
      have hout : MD.getall (setRawBody pfx m b' md ((odGet dv m).getD .none)) k
          = MD.getall md k := by
        refine setRawBody_outside pfx m b' md _ k ?_
        intro hk'
        exact keys_disjoint hne (hnf m (by simp))
          (hnf n (List.mem_cons_of_mem m hmem)) hk' hk
      exact setRawChildren_at_child pfx rest _ dv n w b hrest hpw.2
        (fun x hx => hnf x (List.mem_cons_of_mem m hx)) k hk
        (by rw [hout, hmd])

/-- Same decomposition for `FieldList.set_raw_value`'s index loop. -/
theorem setRawIdxs_at_idx : ∀ (pfx : String) (elem : FBody)
    (dv : List (String × PyValue)) (md : MD) (idxs : List Nat) (i : Nat),
    i ∈ idxs → List.Pairwise (· ≠ ·) idxs →
    ∀ k, KeyOf pfx (Nat.repr i) k → MD.getall md k = [] →
    MD.getall (setRawIdxs pfx elem dv md idxs) k =
      MD.getall (setRawBody pfx (Nat.repr i) elem []
        ((odGet dv (Nat.repr i)).getD .none)) k
  | pfx, elem, dv, md, [], i, hi, _, k, _, _ => absurd hi (List.not_mem_nil i)
  | pfx, elem, dv, md, j :: rest, i, hi, hpw, k, hk, hmd => by
    rw [List.pairwise_cons] at hpw
    rw [setRawIdxs]
    rcases List.mem_cons.mp hi with rfl | hrest
    · rw [setRawIdxs_outside pfx elem dv _ rest k ?_]
      · exact setRawBody_pointwise pfx (Nat.repr i) elem md [] _ k
          (by rw [hmd]; rfl)
      · intro i' hi' hk'
        exact keys_disjoint (fun hr => (hpw.1 i' hi') (repr_injective hr))
          (NameFree_repr i) (NameFree_repr i') hk hk'
    · have hne : Nat.repr j ≠ Nat.repr i :=
        fun hr => (hpw.1 i hrest) (repr_injective hr)
      have hout : MD.getall (setRawBody pfx (Nat.repr j) elem md
          ((odGet dv (Nat.repr j)).getD .none)) k = MD.getall md k := by
        refine setRawBody_outside pfx (Nat.repr j) elem md _ k ?_
        intro hk'
        exact keys_disjoint hne (NameFree_repr j) (NameFree_repr i) hk' hk
      exact setRawIdxs_at_idx pfx elem dv _ rest i hrest hpw.2 k hk
        (by rw [hout, hmd])

/-! ### C1 — the round-trip domain

`RoundOK b v` says the typed value `v` is accepted by the converters of
the field `b` (the claim's "accepted by its converter", including that
`from_python` emits strings), that the value's dict structure matches the
field structure, that sibling names are distinct and separator-free, and
— the condition the counterexample forces — that every nested field is
writable.  `StoredWF b stored` says the field's current `python_data` has
the dict structure `accept` starts from. -/

mutual
def RoundOK : FBody → PyValue → Prop
  | .atom spec, v =>
    (spec.multiple = true →
      spec.accM (spec.fpM v) = v ∧ ∀ r ∈ spec.fpM v, r.isStr = true) ∧
    (spec.multiple = false →
      spec.accS (spec.fpS v) = v ∧ (spec.fpS v).isStr = true)
  | .fieldset cs, v => ∃ dv, v = .vdict dv ∧ odKeys dv = cs.names ∧
      List.Pairwise (· ≠ ·) cs.names ∧ (∀ n ∈ cs.names, NameFree n) ∧
      RoundOKChildren cs dv
  | .fieldlist w elem, v => ∃ l, v = .vlist l ∧ w = true ∧
      ∀ x ∈ l, RoundOK elem x
termination_by b _ => (sizeOf b, 0)
def RoundOKChildren : FChildren → List (String × PyValue) → Prop
  | .nil, _ => True
  | .cons n w b rest, dv => w = true ∧ RoundOK b ((odGet dv n).getD .none) ∧
      RoundOKChildren rest dv
termination_by cs _ => (sizeOf cs, 0)
end

mutual
def StoredWF : FBody → PyValue → Prop
  | .atom _, _ => True
  | .fieldset cs, stored => ∃ ds, stored = .vdict ds ∧ odKeys ds = cs.names ∧
      StoredWFChildren cs ds
  | .fieldlist _ elem, _ => ∀ o : Option PyValue, StoredWF elem (childPyData elem o)
termination_by b _ => (sizeOf b, 0)
def StoredWFChildren : FChildren → List (String × PyValue) → Prop
  | .nil, _ => True
  | .cons n _ b rest, ds => StoredWF b (childPyData b (odGet ds n)) ∧
      StoredWFChildren rest ds
termination_by cs _ => (sizeOf cs, 0)
end

/-- The sequence of in-place dict assignments the `FieldSet.accept` loop
performs on its `result` dict, one per child, each with the value the
claim's round trip expects. -/
def odSetAll (dv : List (String × PyValue)) :
    FChildren → List (String × PyValue) → List (String × PyValue)
  | .nil, result => result
  | .cons n _ _ rest, result =>
    odSetAll dv rest (odSet result n ((odGet dv n).getD .none))

theorem odSet_head_hit {d : List (String × PyValue)} {n : String}
    (y : PyValue) (x : PyValue) :
    odSet ((n, x) :: d) n y = (n, y) :: d := by
  rw [odSet, if_pos rfl]

theorem odSet_head_miss {d : List (String × PyValue)} {n m : String}
    (hne : m ≠ n) (y : PyValue) (x : PyValue) :
    odSet ((n, x) :: d) m y = (n, x) :: odSet d m y := by
  rw [odSet, if_neg (Ne.symm hne)]

theorem odSetAll_cons_head : ∀ (cs : FChildren) (dv d : List (String × PyValue))
    (n : String) (y : PyValue), (∀ m ∈ cs.names, m ≠ n) →
    odSetAll dv cs ((n, y) :: d) = (n, y) :: odSetAll dv cs d
  | .nil, dv, d, n, y, _ => rfl
  | .cons m w b rest, dv, d, n, y, h => by
    rw [odSetAll, odSetAll]
    rw [odSet_head_miss (h m (by rw [FChildren.names]; simp)) _ _]
    exact odSetAll_cons_head rest dv _ n y
      (fun m' hm' => h m' (by rw [FChildren.names]; exact List.mem_cons_of_mem m hm'))

theorem odSetAll_dv_cons : ∀ (cs : FChildren) (dv : List (String × PyValue))
    (n : String) (y : PyValue) (r : List (String × PyValue)),
    (∀ m ∈ cs.names, m ≠ n) →
    odSetAll ((n, y) :: dv) cs r = odSetAll dv cs r
  | .nil, dv, n, y, r, _ => rfl
  | .cons m w b rest, dv, n, y, r, h => by
    rw [odSetAll, odSetAll]
    have hm : m ≠ n := h m (by rw [FChildren.names]; simp)
    rw [show odGet ((n, y) :: dv) m = odGet dv m by rw [odGet, if_neg (Ne.symm hm)]]
    exact odSetAll_dv_cons rest dv n y _
      (fun m' hm' => h m' (by rw [FChildren.names]; exact List.mem_cons_of_mem m hm'))

theorem odSetAll_eq : ∀ (cs : FChildren) (ds dv : List (String × PyValue)),
    odKeys ds = cs.names → odKeys dv = cs.names →
    List.Pairwise (· ≠ ·) cs.names → odSetAll dv cs ds = dv
  | .nil, ds, dv, hds, hdv, _ => by
    rw [FChildren.names] at hds hdv
    rw [odKeys, List.map_eq_nil_iff] at hds hdv
    rw [odSetAll, hds, hdv]
  | .cons n w b rest, ds, dv, hds, hdv, hpw => by
    rw [FChildren.names] at hds hdv hpw
    rw [List.pairwise_cons] at hpw
    obtain ⟨⟨kn, x⟩, ds', rfl, hkn, hds'⟩ :
        ∃ p ds', ds = p :: ds' ∧ p.1 = n ∧ odKeys ds' = rest.names := by
      cases ds with
      | nil => simp [odKeys] at hds
      | cons p ds' =>
        rw [odKeys, List.map_cons] at hds
        injection hds with h1 h2
        exact ⟨p, ds', rfl, h1, h2⟩
    obtain ⟨⟨km, y⟩, dv', rfl, hkm, hdv'⟩ :
        ∃ p dv', dv = p :: dv' ∧ p.1 = n ∧ odKeys dv' = rest.names := by
      cases dv with
      | nil => simp [odKeys] at hdv
      | cons p dv' =>
        rw [odKeys, List.map_cons] at hdv
        injection hdv with h1 h2
        exact ⟨p, dv', rfl, h1, h2⟩
    simp only at hkn hkm
    rw [odSetAll, hkn, hkm]
    rw [show odGet ((n, y) :: dv') n = some y by rw [odGet, if_pos rfl]]
    simp only [Option.getD_some]
    rw [odSet_head_hit]
    have hne : ∀ m ∈ rest.names, m ≠ n := fun m hm => (hpw.1 m hm).symm
    rw [odSetAll_cons_head rest _ _ n y hne, odSetAll_dv_cons rest dv' n y ds' hne,
      odSetAll_eq rest ds' dv' hds' hdv' hpw.2]

/-! Index-dict lemmas for the `FieldList` round trip. -/

theorem indexDictFrom_length : ∀ (i : Nat) (l : List PyValue),
    (indexDictFrom i l).length = l.length
  | _, [] => rfl
  | i, x :: rest => by
    rw [indexDictFrom, List.length_cons, List.length_cons,
      indexDictFrom_length (i + 1) rest]

theorem indexDictFrom_lookup : ∀ (l : List PyValue) (i j : Nat),
    j < l.length →
    odGet (indexDictFrom i l) (Nat.repr (i + j)) = some (l.getD j PyValue.none)
  | [], i, j, h => by simp at h
  | x :: rest, i, j, h => by
    cases j with
    | zero =>
      simp only [Nat.add_zero]
      rw [indexDictFrom, odGet, if_pos rfl]
      rfl
    | succ j =>
      rw [indexDictFrom, odGet, if_neg ?_]
      · have heq : i + (j + 1) = (i + 1) + j := by omega
        rw [heq, indexDictFrom_lookup rest (i + 1) j (by
          rw [List.length_cons] at h
          omega)]
        rfl
      · intro heq
        have := repr_injective heq
        omega

theorem map_range_getD {α : Type} (d : α) : ∀ (l : List α),
    (List.range l.length).map (fun j => l.getD j d) = l
  | [] => rfl
  | x :: rest => by
    rw [List.length_cons, List.range_succ_eq_map, List.map_cons, List.map_map]
    have : (List.map ((fun j => (x :: rest).getD j d) ∘ Nat.succ) (List.range rest.length))
        = (List.range rest.length).map (fun j => rest.getD j d) := by
      apply List.map_congr_left
      intro j hj
      rfl
    rw [this, map_range_getD d rest]
    rfl

theorem odSet_append_of_not_mem : ∀ (d : List (String × PyValue)) (k : String)
    (v : PyValue), k ∉ odKeys d → odSet d k v = d ++ [(k, v)]
  | [], _, _, _ => rfl
  | (k', x) :: rest, k, v, h => by
    have h' : ¬ (k = k' ∨ k ∈ odKeys rest) := by simpa [odKeys] using h
    have hne : ¬ k' = k := fun heq => h' (Or.inl heq.symm)
    rw [odSet, if_neg hne,
      odSet_append_of_not_mem rest k v (fun hm => h' (Or.inr hm)), List.cons_append]

theorem foldl_odSet_eq_append : ∀ (is : List Nat)
    (racc : List (String × PyValue)) (f : Nat → PyValue),
    (∀ i ∈ is, Nat.repr i ∉ odKeys racc) → List.Pairwise (· ≠ ·) is →
    is.foldl (fun r i => odSet r (Nat.repr i) (f i)) racc =
      racc ++ is.map (fun i => (Nat.repr i, f i))
  | [], racc, f, _, _ => by simp
  | i :: rest, racc, f, hfresh, hpw => by
    rw [List.pairwise_cons] at hpw
    rw [List.foldl_cons, List.map_cons]
    rw [odSet_append_of_not_mem racc (Nat.repr i) (f i) (hfresh i (by simp))]
    rw [foldl_odSet_eq_append rest _ f ?_ hpw.2]
    · rw [List.append_assoc]
      rfl
    · intro j hj
      rw [odKeys, List.map_append]
      intro hmem
      rcases List.mem_append.mp hmem with hm | hm
      · exact hfresh j (List.mem_cons_of_mem i hj) hm
      · simp only [List.map_cons, List.map_nil, List.mem_singleton] at hm
        exact hpw.1 j hj (repr_injective hm).symm

theorem indexDict_length (l : List PyValue) : (indexDict l).length = l.length := by
  rw [indexDict]
  exact indexDictFrom_length 1 l

theorem idxsN_pairwise (n : Nat) :
    List.Pairwise (· ≠ ·) ((List.range n).map (· + 1)) := by
  have hnd : ((List.range n).map (· + 1)).Nodup :=
    (List.nodup_range n).map (fun a b h => by omega)
  exact hnd

/-- Content of the canonical raw data of a `FieldList` at its `-indeces`
key. -/
theorem setRaw_fieldlist_getall_indeces (pfx name : String) (w : Bool)
    (elem : FBody) (l : List PyValue) :
    MD.getall (setRawBody pfx name (.fieldlist w elem) [] (.vlist l))
      (pfx ++ name ++ "-indeces") =
    ((List.range l.length).map (· + 1)).map (fun i => Raw.str (Nat.repr i)) := by
  rw [setRawBody]
  simp only [fromPythonB, PyValue.asDict, indexDict_length]
  rw [MD.getall_addAll_self, MD.getall_delall_self]
  rw [List.nil_append]

/-- Away from the `-indeces` key, the canonical raw data of a `FieldList`
is what its element writes wrote. -/
theorem setRaw_fieldlist_getall_other (pfx name : String) (w : Bool)
    (elem : FBody) (l : List PyValue) (k : String)
    (hk : k ≠ pfx ++ name ++ "-indeces") :
    MD.getall (setRawBody pfx name (.fieldlist w elem) [] (.vlist l)) k =
    MD.getall (setRawIdxs (pfx ++ name ++ ".") elem (indexDict l) []
      ((List.range l.length).map (· + 1))) k := by
  rw [setRawBody]
  simp only [fromPythonB, PyValue.asDict, indexDict_length]
  rw [MD.getall_addAll_other _ _ _ _ hk, MD.getall_delall_other _ _ _ hk]

/-! ### C1 — the round-trip lemma

`accept`, run on raw data whose content on the field's key space is what
`set_raw_value` wrote into an empty multidict, returns exactly the
written value and leaves the raw data and the error dict untouched —
on the all-writable, well-formed domain `RoundOK`/`StoredWF`. -/

mutual
theorem mainRoundTrip : ∀ (pfx name : String) (b : FBody) (stored v : PyValue)
    (md : MD) (errs : Errors), RoundOK b v → StoredWF b stored →
    (∀ k, KeyOf pfx name k →
      MD.getall md k = MD.getall (setRawBody pfx name b [] v) k) →
    acceptBody pfx name b stored md errs = (v, md, errs)
  | pfx, name, .atom spec, stored, v, md, errs, hro, _, hmd => by
    rw [RoundOK] at hro
    obtain ⟨hroM, hroS⟩ := hro
    have hkey := hmd (pfx ++ name) (KeyOf_self pfx name)
    simp only [acceptBody]
    cases hm : spec.multiple with
    | false =>
      obtain ⟨hacc, hstr⟩ := hroS hm
      have hget : MD.getall md (pfx ++ name) = [spec.fpS v] := by
        rw [hkey, setRawBody, if_neg (by simp [hm]), MD.getall_set_self]
      have hval : MD.get md (pfx ++ name) (Raw.str "") = spec.fpS v := by
        rw [MD.get, hget]
        rfl
      have hchk : Field.check_value_type (pfx ++ name) [spec.fpS v] errs =
          (true, errs) := by
        rw [Field.check_value_type, if_pos (by simp [hstr])]
      have hfa : Field.accept spec (pfx ++ name) md errs = (v, errs) := by
        simp only [Field.accept, hm, Bool.false_eq_true, if_false, hval, hchk]
        simp [hacc]
      rw [hfa]
    | true =>
      obtain ⟨hacc, hstr⟩ := hroM hm
      have hget : MD.getall md (pfx ++ name) = spec.fpM v := by
        rw [hkey, setRawBody, if_pos hm, MD.getall_addAll_self,
          MD.getall_delall_self, List.nil_append]
      have hchk : Field.check_value_type (pfx ++ name) (spec.fpM v) errs =
          (true, errs) := by
        rw [Field.check_value_type, if_pos ?_]
        simp only [List.all_eq_true]
        exact hstr
      have hfa : Field.accept spec (pfx ++ name) md errs = (v, errs) := by
        simp only [Field.accept, hm, if_true, hget, hchk]
        simp [hacc]
      rw [hfa]
  | pfx, name, .fieldset cs, stored, v, md, errs, hro, hsw, hmd => by
    rw [RoundOK] at hro
    obtain ⟨dv, rfl, hkeys, hpw, hnf, hroc⟩ := hro
    rw [StoredWF] at hsw
    obtain ⟨ds, rfl, hdskeys, hswc⟩ := hsw
    have hagree : ∀ n w b, HasChild n w b cs → ∀ k,
        KeyOf (pfx ++ name ++ ".") n k →
        MD.getall md k = MD.getall (setRawBody (pfx ++ name ++ ".") n b []
          ((odGet dv n).getD .none)) k := by
      intro n w b hc k hk
      rw [hmd k (KeyOf_extend pfx name n k hk)]
      have hcan : setRawBody pfx name (.fieldset cs) [] (.vdict dv) =
          setRawChildren (pfx ++ name ++ ".") cs [] dv := by
        rw [setRawBody]
        rfl
      rw [hcan]
      exact setRawChildren_at_child (pfx ++ name ++ ".") cs [] dv n w b hc hpw
        hnf k hk rfl
    have hacc := mainChildrenRT (pfx ++ name ++ ".") cs dv ds ds md errs hroc
      hswc hagree
    simp only [acceptBody, PyValue.asDict]
    rw [hacc, odSetAll_eq cs ds dv hdskeys hkeys hpw]
  | pfx, name, .fieldlist w elem, stored, v, md, errs, hro, hsw, hmd => by
    rw [RoundOK] at hro
    obtain ⟨l, rfl, rfl, helem⟩ := hro
    rw [StoredWF] at hsw
    have hind : MD.getall md (pfx ++ name ++ "-indeces") =
        ((List.range l.length).map (· + 1)).map (fun i => Raw.str (Nat.repr i)) := by
      rw [hmd _ (KeyOf_indeces pfx name), setRaw_fieldlist_getall_indeces]
    have hagree : ∀ i ∈ (List.range l.length).map (· + 1), ∀ k,
        KeyOf (pfx ++ name ++ ".") (Nat.repr i) k →
        MD.getall md k = MD.getall (setRawBody (pfx ++ name ++ ".")
          (Nat.repr i) elem [] ((odGet (indexDict l) (Nat.repr i)).getD .none)) k := by
      intro i hi k hk
      rw [hmd k (KeyOf_extend pfx name (Nat.repr i) k hk)]
      rw [setRaw_fieldlist_getall_other pfx name true elem l k
        (indeces_key_not_nested hk)]
      exact setRawIdxs_at_idx (pfx ++ name ++ ".") elem (indexDict l) []
        ((List.range l.length).map (· + 1)) i hi (idxsN_pairwise l.length) k hk rfl
    have hroElems : ∀ i ∈ (List.range l.length).map (· + 1),
        RoundOK elem ((odGet (indexDict l) (Nat.repr i)).getD .none) := by
      intro i hi
      simp only [List.mem_map, List.mem_range] at hi
      obtain ⟨j, hj, rfl⟩ := hi
      have hlook : odGet (indexDict l) (Nat.repr (j + 1)) =
          some (l.getD j PyValue.none) := by
        rw [indexDict, show j + 1 = 1 + j from by omega]
        exact indexDictFrom_lookup l 1 j hj
      rw [hlook]
      simp only [Option.getD_some]
      apply helem
      have hg : l.getD j PyValue.none = l.get ⟨j, hj⟩ := by
        rw [List.getD_eq_getElem?_getD, List.getElem?_eq_getElem hj]
        rfl
      rw [hg]
      exact List.get_mem l j hj
    have hmain := mainIdxsRT (pfx ++ name ++ ".") elem stored.asDict
      (indexDict l) ((List.range l.length).map (· + 1)) [] md errs hroElems hsw
      hagree
    simp only [acceptBody]
    rw [hind]
    have hfm : ((((List.range l.length).map (· + 1)).map
        (fun i => Raw.str (Nat.repr i))).filterMap Raw.asStr) =
        ((List.range l.length).map (· + 1)).map Nat.repr := by
      rw [List.filterMap_map]
      have hcomp : Raw.asStr ∘ (fun i : Nat => Raw.str (Nat.repr i)) =
          some ∘ Nat.repr := rfl
      rw [hcomp, List.filterMap_eq_map]
    rw [hfm, hmain]
    rw [foldl_odSet_eq_append ((List.range l.length).map (· + 1)) []
      _ (by simp [odKeys]) (idxsN_pairwise l.length)]
    simp only [List.nil_append, odValues, List.map_map]
    have hpt : ∀ j ∈ List.range l.length,
        ((fun p : String × PyValue => p.2) ∘
          (fun i => (Nat.repr i, (odGet (indexDict l) (Nat.repr i)).getD
            PyValue.none)) ∘ (· + 1)) j = l.getD j PyValue.none := by
      intro j hj
      rw [List.mem_range] at hj
      simp only [Function.comp]
      rw [indexDict, show j + 1 = 1 + j from by omega,
        indexDictFrom_lookup l 1 j hj]
      rfl
    rw [List.map_congr_left hpt, map_range_getD]
termination_by pfx name b => (sizeOf b, 0)
theorem mainChildrenRT : ∀ (pfx : String) (cs : FChildren)
    (dv ds result : List (String × PyValue)) (md : MD) (errs : Errors),
    RoundOKChildren cs dv → StoredWFChildren cs ds →
    (∀ n w b, HasChild n w b cs → ∀ k, KeyOf pfx n k →
      MD.getall md k = MD.getall (setRawBody pfx n b []
        ((odGet dv n).getD .none)) k) →
    acceptChildren pfx cs ds result md errs = (odSetAll dv cs result, md, errs)
  | pfx, .nil, dv, ds, result, md, errs, _, _, _ => by
    rw [acceptChildren, odSetAll]
  | pfx, .cons n w b rest, dv, ds, result, md, errs, hroc, hswc, hagree => by
    rw [RoundOKChildren] at hroc
    obtain ⟨rfl, hro, hrest⟩ := hroc
    rw [StoredWFChildren] at hswc
    obtain ⟨hsw1, hswrest⟩ := hswc
    have hacc := mainRoundTrip pfx n b (childPyData b (odGet ds n))
      ((odGet dv n).getD .none) md errs hro hsw1
      (hagree n true b (Or.inl ⟨rfl, rfl, rfl⟩))
    simp only [acceptChildren, eq_self_iff_true, if_true, hacc, odSetAll]
    exact mainChildrenRT pfx rest dv ds _ md errs hrest hswrest
      (fun n' w' b' hc' => hagree n' w' b' (Or.inr hc'))
termination_by pfx cs => (sizeOf cs, 0)
theorem mainIdxsRT : ∀ (pfx : String) (elem : FBody)
    (old dv : List (String × PyValue)) (is : List Nat)
    (result : List (String × PyValue)) (md : MD) (errs : Errors),
    (∀ i ∈ is, RoundOK elem ((odGet dv (Nat.repr i)).getD .none)) →
    (∀ o, StoredWF elem (childPyData elem o)) →
    (∀ i ∈ is, ∀ k, KeyOf pfx (Nat.repr i) k →
      MD.getall md k = MD.getall (setRawBody pfx (Nat.repr i) elem []
        ((odGet dv (Nat.repr i)).getD .none)) k) →
    acceptIndeces pfx true elem old (is.map Nat.repr) result md errs =
      (is.foldl (fun r i => odSet r (Nat.repr i)
        ((odGet dv (Nat.repr i)).getD .none)) result, md, errs)
  | pfx, elem, old, dv, [], result, md, errs, _, _, _ => by
    rw [List.map_nil, acceptIndeces, List.foldl_nil]
  | pfx, elem, old, dv, i :: rest, result, md, errs, hro, hsw, hagree => by
    rw [List.map_cons, List.foldl_cons]
    have hacc := mainRoundTrip pfx (Nat.repr i) elem
      (childPyData elem (odGet old (Nat.repr i)))
      ((odGet dv (Nat.repr i)).getD .none) md errs (hro i (by simp)) (hsw _)
      (hagree i (by simp))
    simp only [acceptIndeces, pyIntParses_repr, eq_self_iff_true, if_true, hacc]
    exact mainIdxsRT pfx elem old dv rest _ md errs
      (fun j hj => hro j (List.mem_cons_of_mem i hj)) hsw
      (fun j hj => hagree j (List.mem_cons_of_mem i hj))
termination_by pfx elem old dv is => (sizeOf elem, is.length + 1)
end

/-- A concrete character converter for witnesses: `from_python` renders
the string, `accept` parses it back (the identity round trip on string
values, as the `Char` converter provides). -/
def strConv : AtomSpec where
  multiple := false
  accS := fun r => match r with | .str s => .pstr s | .obj n => .pobj n
  fpS := fun v => match v with | .pstr s => .str s | _ => .str ""
  accM := fun _ => PyValue.none
  fpM := fun _ => []
  initial := Option.none

/-- A `FieldSet` with a single read-only atomic field named `x`. -/
def roField : FBody := .fieldset (.cons "x" false (.atom strConv) .nil)

/-- Refutation of claim C1 as stated ("for every field and every typed
value accepted by its converter, set_raw_value followed by accept yields
the value back") at a concrete input: a `FieldSet` holding one read-only
field.  The value `{'x': 'b'}` is accepted by the converters (the `x`
conversion round-trips), the raw multidict starts empty, yet `accept`
returns the stored python_data `{'x': 'a'}`, because `FieldSet.accept`
ignores submitted raw data for a field without the `'w'` permission. -/
theorem C1_round_trip_counterexample :
    (acceptBody "" "f" roField (.vdict [("x", .pstr "a")])
      (setRawBody "" "f" roField [] (.vdict [("x", .pstr "b")])) []).1 ≠
    .vdict [("x", .pstr "b")] := by
  intro h
  simp only [roField, strConv, acceptBody, acceptChildren, setRawBody,
    setRawChildren, Field.accept, Field.check_value_type, MD.get, MD.getall,
    MD.set, MD.delall, MD.addAll, odGet, odSet, childPyData, fromPythonB,
    getInitialB, Raw.isStr, PyValue.asDict] at h
  simp at h

/-- Claim C1 as amended — the round trip holds on the all-writable,
well-formed domain: for every field whose nested fields are all writable,
with pairwise-distinct separator-free sibling names, every typed value
accepted by its converters (`RoundOK`), and a stored `python_data` of the
matching dict shape (`StoredWF`), writing the value into an empty
raw-data multidict via `set_raw_value(raw_data, from_python(value))` and
running the field's `accept()` on that raw data yields the same value
back (and leaves the raw data and error dict unchanged). -/
theorem C1_round_trip (pfx name : String) (b : FBody) (stored v : PyValue)
    (errs : Errors) (hro : RoundOK b v) (hsw : StoredWF b stored) :
    acceptBody pfx name b stored (setRawBody pfx name b [] v) errs =
      (v, setRawBody pfx name b [] v, errs) :=
  mainRoundTrip pfx name b stored v (setRawBody pfx name b [] v) errs hro hsw
    (fun _ _ => rfl)

/-- A writable form: a `FieldSet` holding an atomic field `x` and a
`FieldList` `L` of atomic fields. -/
def wfForm : FBody :=
  .fieldset (.cons "x" true (.atom strConv)
    (.cons "L" true (.fieldlist true (.atom strConv)) .nil))

/-- Witness for the amended C1 on a two-field form with a list field. -/
theorem C1_round_trip_witness :
    RoundOK wfForm (.vdict [("x", .pstr "b"), ("L", .vlist [.pstr "u", .pstr "v"])]) ∧
    StoredWF wfForm (.vdict [("x", .pstr "a"), ("L", .vlist [])]) ∧
    acceptBody "" "f" wfForm (.vdict [("x", .pstr "a"), ("L", .vlist [])])
      (setRawBody "" "f" wfForm []
        (.vdict [("x", .pstr "b"), ("L", .vlist [.pstr "u", .pstr "v"])])) [] =
      (.vdict [("x", .pstr "b"), ("L", .vlist [.pstr "u", .pstr "v"])],
       setRawBody "" "f" wfForm []
         (.vdict [("x", .pstr "b"), ("L", .vlist [.pstr "u", .pstr "v"])]), []) := by
  have hatom : ∀ s : String, RoundOK (.atom strConv) (.pstr s) := by
    intro s
    rw [RoundOK]
    exact ⟨fun h => Bool.noConfusion h, fun _ => ⟨rfl, rfl⟩⟩
  have hatomWF : ∀ x : PyValue, StoredWF (.atom strConv) x := by
    intro x
    rw [StoredWF]
    trivial
  have hro : RoundOK wfForm
      (.vdict [("x", .pstr "b"), ("L", .vlist [.pstr "u", .pstr "v"])]) := by
    rw [wfForm, RoundOK]
    refine ⟨[("x", .pstr "b"), ("L", .vlist [.pstr "u", .pstr "v"])], rfl, rfl,
      by decide, by decide, ?_⟩
    rw [RoundOKChildren]
    refine ⟨rfl, hatom "b", ?_⟩
    rw [RoundOKChildren]
    refine ⟨rfl, ?_, by rw [RoundOKChildren]; trivial⟩
    rw [RoundOK]
    refine ⟨[.pstr "u", .pstr "v"], rfl, rfl, ?_⟩
    intro x hx
    rcases List.mem_cons.mp hx with rfl | hx
    · exact hatom "u"
    · rcases List.mem_cons.mp hx with rfl | hx
      · exact hatom "v"
      · exact absurd hx (List.not_mem_nil x)
  have hsw : StoredWF wfForm (.vdict [("x", .pstr "a"), ("L", .vlist [])]) := by
    rw [wfForm, StoredWF]
    refine ⟨[("x", .pstr "a"), ("L", .vlist [])], rfl, rfl, ?_⟩
    rw [StoredWFChildren]
    refine ⟨hatomWF _, ?_⟩
    rw [StoredWFChildren]
    refine ⟨?_, by rw [StoredWFChildren]; trivial⟩
    rw [StoredWF]
    intro o
    exact hatomWF _
  exact ⟨hro, hsw, C1_round_trip "" "f" wfForm _ _ [] hro hsw⟩

end Spec2Proof
